import Mathlib

/-
Verification of the bam embedded GUI library (src/bam.c, src/bam.h).

The development shallowly embeds the C sources into Lean:
  * rectangles keep their four int coordinates as unbounded Int
    (the C programs never rely on int overflow in the verified paths);
  * the dirty-tile bitmap is a function from 32-bit-word index to the
    word value (a Nat, constrained to be < 2^32 where it matters);
  * truncating C integer division on int is Int.tdiv;
  * unsigned 32-bit arithmetic is Nat arithmetic reduced mod 2^32 at
    the points where C would wrap;
  * the host capability table is abstracted by function parameters
    (glyph metrics lookup); host draw calls made by dirty_clean are
    collected into an explicit call list;
  * the nestable event loop of bam_start is embedded with the chain of
    stack-local run flags represented as a list (innermost first), and
    one loop iteration body (clean + get_event + dispatch + callback)
    abstracted as a state transformer.
-/

-- ******** MIN/MAX (src/bam.c min_int / max_int) ********

def min_int (a b : Int) : Int := if a < b then a else b

def max_int (a b : Int) : Int := if a > b then a else b

-- ******** RECTANGLE (src/bam.c rect_*) ********

/-- bam_rect_t: four int coordinates, half-open on both axes. -/
structure bam_rect_t where
  x1 : Int
  y1 : Int
  x2 : Int
  y2 : Int
deriving DecidableEq, Repr

def rect_init (x y width height : Int) : bam_rect_t :=
  { x1 := x, y1 := y, x2 := x + width, y2 := y + height }

def rect_init_empty : bam_rect_t :=
  { x1 := 0, y1 := 0, x2 := 0, y2 := 0 }

def rect_empty (rect : bam_rect_t) : Bool :=
  rect.x2 ≤ rect.x1 || rect.y2 ≤ rect.y1

def rect_width (rect : bam_rect_t) : Int := rect.x2 - rect.x1

def rect_height (rect : bam_rect_t) : Int := rect.y2 - rect.y1

def rect_contains_point (rect : bam_rect_t) (x y : Int) : Bool :=
  x ≥ rect.x1 && x < rect.x2 && y ≥ rect.y1 && y < rect.y2

def rect_overlaps (rect other : bam_rect_t) : Bool :=
  rect.x1 < other.x2 && other.x1 < rect.x2 &&
  rect.y1 < other.y2 && other.y1 < rect.y2

def rect_translate (rect : bam_rect_t) (dx dy : Int) : bam_rect_t :=
  { x1 := rect.x1 + dx, y1 := rect.y1 + dy, x2 := rect.x2 + dx, y2 := rect.y2 + dy }

def rect_set_pos (rect : bam_rect_t) (x y : Int) : bam_rect_t :=
  rect_translate rect (x - rect.x1) (y - rect.y1)

def rect_intersect (rect other : bam_rect_t) : bam_rect_t :=
  { x1 := max_int rect.x1 other.x1
    y1 := max_int rect.y1 other.y1
    x2 := max_int other.x1 (min_int rect.x2 other.x2)
    y2 := max_int other.y1 (min_int rect.y2 other.y2) }

-- ******** UNICODE (src/bam.c unicode_decode_utf8) ********

def LENGTH_LUT : List Nat :=
  [1, 1, 1, 1, 1, 1, 1, 1,
   1, 1, 1, 1, 1, 1, 1, 1,
   0, 0, 0, 0, 0, 0, 0, 0,
   2, 2, 2, 2, 3, 3, 4, 0]

def MASK_LUT : List Nat := [0x00, 0x7f, 0x1f, 0x0f, 0x07]

def SHIFT_C_LUT : List Nat := [0, 18, 12, 6, 0]

/-- unicode_decode_utf8 (src/bam.c lines 171-201).  The byte buffer is a
function from position to byte value (reduced mod 256, as the uint8_t
loads guarantee in C).  Returns (next position, decoded codepoint):
next = input + len + (1 if len = 0 else 0). -/
def unicode_decode_utf8 (bytes : Nat → Nat) (input : Nat) : Nat × Nat :=
  let seq0 := bytes input % 256
  let len := LENGTH_LUT.getD (seq0 >>> 3) 0
  let next := input + len + (if len = 0 then 1 else 0)
  let unichar :=
    (((seq0 &&& MASK_LUT.getD len 0) <<< 18 |||
      ((bytes (input + 1) % 256) &&& 0x3F) <<< 12 |||
      ((bytes (input + 2) % 256) &&& 0x3F) <<< 6 |||
      ((bytes (input + 3) % 256) &&& 0x3F)) >>> SHIFT_C_LUT.getD len 0)
  (next, unichar)

-- ******** FONT/GLYPH METRICS (src/bam.c metrics_calc_string_width) ********

/-- The C cast (int16_t) applied to an int value: wrap into
[-32768, 32767]. -/
def toInt16 (z : Int) : Int := (z + 32768) % 65536 - 32768

/-- The while loop of metrics_calc_string_width, with explicit fuel.
The host capability vtable->get_glyph_metrics is abstracted as a
function from font and codepoint to Option Int: some x_advance when the
host reports the glyph present, none when missing.  On a present glyph
the cursor accumulates x_advance through the (int16_t) cast; a missing
glyph leaves the cursor unchanged. -/
def metrics_go (get_glyph_metrics : Nat → Nat → Option Int) (font : Nat)
    (bytes : Nat → Nat) (text_e : Nat) : Nat → Nat → Int → Int
  | 0, _, cursor_x => cursor_x
  | fuel + 1, text_i, cursor_x =>
    if text_i < text_e then
      let d := unicode_decode_utf8 bytes text_i
      match get_glyph_metrics font d.2 with
      | some x_advance =>
        metrics_go get_glyph_metrics font bytes text_e fuel d.1
          (toInt16 (cursor_x + x_advance))
      | none => metrics_go get_glyph_metrics font bytes text_e fuel d.1 cursor_x
    else cursor_x

/-- metrics_calc_string_width (src/bam.c lines 206-224).  The loop is
bounded by the byte range, so fuel text_e - text_start suffices (the
decoder advances by at least one byte per iteration; see the fuel
irrelevance part of the C8 theorem). -/
def metrics_calc_string_width (get_glyph_metrics : Nat → Nat → Option Int)
    (font : Nat) (bytes : Nat → Nat) (text_start text_e : Nat) : Int :=
  metrics_go get_glyph_metrics font bytes text_e (text_e - text_start) text_start 0

/-- The sequence of codepoints decoded from the byte range, following
the same decoding loop. -/
def decode_codepoints (bytes : Nat → Nat) (text_e : Nat) : Nat → Nat → List Nat
  | 0, _ => []
  | fuel + 1, text_i =>
    if text_i < text_e then
      let d := unicode_decode_utf8 bytes text_i
      d.2 :: decode_codepoints bytes text_e fuel d.1
    else []

/-- Reference definition following the specification words for C9: the
sum of x_advance over the decoded codepoints whose glyph the host
reports present (a missing codepoint contributes nothing). -/
def string_width_spec (get_glyph_metrics : Nat → Nat → Option Int)
    (font : Nat) (bytes : Nat → Nat) (text_start text_e : Nat) : Int :=
  ((decode_codepoints bytes text_e (text_e - text_start) text_start).filterMap
    (get_glyph_metrics font)).sum

-- ******** DIRTY BUFFER (src/bam.c dirty_mark_rect / dirty_clean) ********

def BAM_UINT32_MASK : Nat := 0xFFFFFFFF

/-- The dirty bitmap buffer: a map from 32-bit word index to the word
value (each value < 2^32 for a well-formed buffer). -/
abbrev DirtyBitmap := Nat → Nat

/-- Geometry fields of the bam context used by the dirty-buffer code. -/
structure BamGeom where
  disp_width : Int
  disp_height : Int
  tile_width : Int
  tile_height : Int
  dirty_buffer_pitch : Nat
deriving Repr

def bitmap_write (bm : DirtyBitmap) (i v : Nat) : DirtyBitmap :=
  fun j => if j = i then v else bm j

def bitmap_write_or (bm : DirtyBitmap) (i v : Nat) : DirtyBitmap :=
  fun j => if j = i then bm j ||| v else bm j

/-- The inner loop of dirty_mark_rect that assigns BAM_UINT32_MASK to the
n words starting at index a (for mid_ptr between left_ptr and right_ptr). -/
def mark_mid_words : DirtyBitmap → Nat → Nat → DirtyBitmap
  | bm, _, 0 => bm
  | bm, a, n + 1 => mark_mid_words (bitmap_write bm a BAM_UINT32_MASK) (a + 1) n

/-- The row loop of dirty_mark_rect in the left_ptr == right_ptr case:
OR the combined mask into one word per row, stepping by the pitch. -/
def mark_rows_same (pitch word : Nat) : DirtyBitmap → Nat → Nat → DirtyBitmap
  | bm, _, 0 => bm
  | bm, idx, n + 1 =>
    mark_rows_same pitch word (bitmap_write_or bm idx word) (idx + pitch) n

/-- One row of dirty_mark_rect in the left_ptr != right_ptr case: OR the
left mask into the left word, assign all-ones to the words strictly
between, OR the right mask into the right word. -/
def mark_split_row (bm : DirtyBitmap) (li ri lw rw : Nat) : DirtyBitmap :=
  bitmap_write_or
    (mark_mid_words (bitmap_write_or bm li lw) (li + 1) (ri - (li + 1)))
    ri rw

/-- The row loop of dirty_mark_rect in the left_ptr != right_ptr case,
stepping both word indices by the pitch. -/
def mark_rows_split (pitch lw rw : Nat) : DirtyBitmap → Nat → Nat → Nat → DirtyBitmap
  | bm, _, _, 0 => bm
  | bm, li, ri, n + 1 =>
    mark_rows_split pitch lw rw (mark_split_row bm li ri lw rw)
      (li + pitch) (ri + pitch) n

/-- The marking core of dirty_mark_rect (src/bam.c lines 461-495) on
inclusive tile bounds cx1..cx2, cy1..cy2: build the left and right word
masks (high bits correspond to small columns; a uint32 left shift wraps
mod 2^32), locate the left and right word indices of the first row, and
run the row loop, combined when both indices coincide and split
otherwise. -/
def dirty_mark_tiles (pitch : Nat) (bm : DirtyBitmap) (cx1 cy1 cx2 cy2 : Nat) : DirtyBitmap :=
  let left_word : Nat := BAM_UINT32_MASK >>> (cx1 % 32)
  let right_word : Nat := (BAM_UINT32_MASK <<< (31 - cx2 % 32)) % 2 ^ 32
  let left_idx : Nat := cy1 * pitch + cx1 / 32
  let right_idx : Nat := cy1 * pitch + cx2 / 32
  let n_rows : Nat := cy2 + 1 - cy1
  if left_idx = right_idx then
    mark_rows_same pitch (left_word &&& right_word) bm left_idx n_rows
  else
    mark_rows_split pitch left_word right_word bm left_idx right_idx n_rows

/-- dirty_mark_rect (src/bam.c lines 431-497).  Clamps the rectangle to
the display, converts to tile coordinates with C truncating int division
(Int.tdiv), and if the tile rectangle is non-empty ORs the left/right
masks (and assigns all-ones to intermediate words) for each tile row.
The index and shift computations move to Nat exactly where the C code
casts to size_t / masks into [0,32); all quantities are non-negative
there because the clip was clamped at 0 and the empty test passed. -/
def dirty_mark_rect (g : BamGeom) (bm : DirtyBitmap) (rect : bam_rect_t) : DirtyBitmap :=
  let clipPix : bam_rect_t :=
    { x1 := max_int 0 rect.x1, y1 := max_int 0 rect.y1,
      x2 := min_int g.disp_width rect.x2, y2 := min_int g.disp_height rect.y2 }
  let clip : bam_rect_t :=
    { x1 := clipPix.x1.tdiv g.tile_width,
      y1 := clipPix.y1.tdiv g.tile_height,
      x2 := (clipPix.x2 + g.tile_width - 1).tdiv g.tile_width,
      y2 := (clipPix.y2 + g.tile_height - 1).tdiv g.tile_height }
  if rect_empty clip then bm
  else
    -- clip.x2--; clip.y2-- : the bounds become inclusive
    dirty_mark_tiles g.dirty_buffer_pitch bm clip.x1.toNat clip.y1.toNat
      (clip.x2 - 1).toNat (clip.y2 - 1).toNat

/-- Number of tile columns of the display: BAM__TILE_COUNT(disp_width, tile_width). -/
def tile_cols (g : BamGeom) : Nat :=
  ((g.disp_width + g.tile_width - 1).tdiv g.tile_width).toNat

/-- Number of tile rows of the display: BAM__TILE_COUNT(disp_height, tile_height). -/
def tile_rows (g : BamGeom) : Nat :=
  ((g.disp_height + g.tile_height - 1).tdiv g.tile_height).toNat

/-- The dirty bit of tile (c, r): bit (31 - c mod 32) of word
(r * pitch + c / 32); the most-significant bit of a word corresponds to
the smallest column index. -/
def tile_bit (bm : DirtyBitmap) (pitch c r : Nat) : Bool :=
  (bm (r * pitch + c / 32)).testBit (31 - c % 32)

/-- The pixel rectangle of tile (c, r). -/
def tile_rect (g : BamGeom) (c r : Nat) : bam_rect_t :=
  { x1 := c * g.tile_width, y1 := r * g.tile_height,
    x2 := (c + 1) * g.tile_width, y2 := (r + 1) * g.tile_height }

/-- The rectangle clamped to the display, as computed at the top of
dirty_mark_rect. -/
def clamp_to_display (g : BamGeom) (rect : bam_rect_t) : bam_rect_t :=
  { x1 := max_int 0 rect.x1, y1 := max_int 0 rect.y1,
    x2 := min_int g.disp_width rect.x2, y2 := min_int g.disp_height rect.y2 }


/-- The inner bit loop of dirty_clean on one 32-bit word: for each
iteration, clz = count-leading-zeros of the word (31 - log2 for a
word < 2^32) is recorded and the highest set bit is cleared
(word &= ~(0x80000000 >> clz) leaves word mod 2^(log2 word)).  The
returned list holds the successive clz values, highest bit first. -/
def wordBlts (w : Nat) : List Nat :=
  if h : w = 0 then []
  else
    have hlt : w % 2 ^ w.log2 < w :=
      Nat.lt_of_lt_of_le
        (Nat.mod_lt _ (Nat.pos_pow_of_pos _ (by omega)))
        (Nat.log2_self_le h)
    (31 - w.log2) :: wordBlts (w % 2 ^ w.log2)
termination_by w

/-- The word loop of dirty_clean (src/bam.c lines 531-571): read a word,
write zero back, emit one host blt_tile call per set bit at display
position (word_x + clz * tile_width, offset_y), then advance: while
within the current row (tracked here by the number of words left in the
row, pitch at a row start) word_x grows by 32 * tile_width, else word_x
resets to 0 and offset_y grows by tile_height.  Drawing into the tile
buffer does not touch the dirty bitmap, so only the blt_tile calls and
the final bitmap are returned. -/
def dirty_clean_go (g : BamGeom) :
    List Nat → Int → Int → Nat → List (Int × Int) × List Nat
  | [], _, _, _ => ([], [])
  | w :: rest, word_x, offset_y, row_rem =>
    let blts := (wordBlts w).map
      (fun (clz : Nat) => (word_x + (clz : Int) * g.tile_width, offset_y))
    let next :=
      if row_rem ≤ 1 then
        dirty_clean_go g rest 0 (offset_y + g.tile_height) g.dirty_buffer_pitch
      else
        dirty_clean_go g rest (word_x + 32 * g.tile_width) offset_y (row_rem - 1)
    (blts ++ next.1, 0 :: next.2)

/-- dirty_clean (src/bam.c lines 510-572) on a bitmap held as the list
of its words: starts at the top-left word with a full row remaining. -/
def dirty_clean (g : BamGeom) (words : List Nat) :
    List (Int × Int) × List Nat :=
  dirty_clean_go g words 0 0 g.dirty_buffer_pitch

/-- The dirty bit of tile (col, row) in a bitmap given as a word list:
bit (31 - col mod 32) of word (row * pitch + col / 32), for a column
within the row's words. -/
def dirty_tile_in_words (words : List Nat) (pitch col row : Nat) : Prop :=
  col < 32 * pitch ∧
    (words.getD (row * pitch + col / 32) 0).testBit (31 - col % 32) = true

instance (words : List Nat) (pitch col row : Nat) :
    Decidable (dirty_tile_in_words words pitch col row) := by
  unfold dirty_tile_in_words
  infer_instance

-- ******** WIDGET STATE (src/bam.h bam_state_t) ********

inductive bam_state_t where
  | BAM_STATE_DISABLED
  | BAM_STATE_ENABLED
  | BAM_STATE_PRESSED
deriving DecidableEq, Repr

/-- bam_widget_t, restricted to the fields the verified operations read
or write (state and bounding rectangle); style, text, callback, user
data and metadata take no part in the claims below. -/
structure bam_widget_t where
  state : bam_state_t
  rect : bam_rect_t

/-- bam_get_widget_enabled (src/bam.c lines 742-747): true iff the
widget state equals BAM_STATE_ENABLED. -/
def bam_get_widget_enabled (state : bam_state_t) : Bool :=
  state = bam_state_t.BAM_STATE_ENABLED

/-- bam_set_widget_enabled (src/bam.c lines 727-739): compute the new
state from the flag; if it differs from the current state, store it and
mark the widget rectangle dirty (widget_make_dirty = dirty_mark_rect on
widget->rect), otherwise do nothing. -/
def bam_set_widget_enabled (g : BamGeom) (bm : DirtyBitmap) (widget : bam_widget_t)
    (enabled : Bool) : bam_widget_t × DirtyBitmap :=
  let new_state := if enabled then bam_state_t.BAM_STATE_ENABLED
                   else bam_state_t.BAM_STATE_DISABLED
  if widget.state ≠ new_state then
    ({ widget with state := new_state }, dirty_mark_rect g bm widget.rect)
  else
    (widget, bm)

-- ******** LAYOUT API (src/bam.c bam_layout_grid) ********

/-- The inner column loop of bam_layout_grid: starting at x, walk one
row of up to n_cols cells; at each cell, stop if the handle capacity is
exhausted, else record the widget rectangle that bam_add_widget would
create (rect_init x y width height) and advance x by width + h_spacing.
Returns the created rectangles and the remaining handle capacity
(0 remaining makes every later row create nothing, which is the same
outcome as the early return in C). -/
def grid_row_widgets (width height h_spacing : Int) :
    Int → Int → Nat → Nat → List bam_rect_t × Nat
  | _, _, 0, cap => ([], cap)
  | x, y, col + 1, cap =>
    match cap with
    | 0 => ([], 0)
    | cap + 1 =>
      let rest := grid_row_widgets width height h_spacing (x + width + h_spacing) y col cap
      (rect_init x y width height :: rest.1, rest.2)

/-- The outer row loop of bam_layout_grid: walk n_rows rows starting at
y, stepping y by height + v_spacing. -/
def grid_rows_widgets (x0 width height h_spacing v_spacing : Int) (n_cols : Nat) :
    Int → Nat → Nat → List bam_rect_t
  | _, 0, _ => []
  | y, row + 1, cap =>
    let r := grid_row_widgets width height h_spacing x0 y n_cols cap
    r.1 ++ grid_rows_widgets x0 width height h_spacing v_spacing n_cols
      (y + height + v_spacing) row r.2

/-- bam_layout_grid (src/bam.c lines 921-970), recording the bounding
rectangles of the widgets it creates, in creation order.  Degenerate
inputs create nothing; spacing is clamped at 0; the cell size uses C
truncating int division. -/
def bam_layout_grid (n_cols n_rows : Int) (bounds : bam_rect_t)
    (h_spacing v_spacing : Int) (n_handles : Nat) : List bam_rect_t :=
  if n_cols ≤ 0 || n_rows ≤ 0 || rect_empty bounds then []
  else
    let hs := max_int 0 h_spacing
    let vs := max_int 0 v_spacing
    let width := (rect_width bounds - hs * (n_cols - 1)).tdiv n_cols
    let height := (rect_height bounds - vs * (n_rows - 1)).tdiv n_rows
    grid_rows_widgets bounds.x1 width height hs vs n_cols.toNat bounds.y1
      n_rows.toNat n_handles


-- ******** EVENT API (src/bam.c bam_start / bam_stop / bam_quit) ********

/-- Event-loop control state of the bam context: the quit flag, the
chain of stack-local run flags of the currently active loops (innermost
first; bam->run_flag points at the head; the empty list is the NULL
run-flag pointer of no running loop), and the last run result. -/
structure BamLoopCtx where
  quit_flag : Bool
  run_flags : List Bool
  run_result : Int
deriving DecidableEq, Repr

/-- bam_stop (src/bam.c lines 896-907): only acts if an event loop is
running; stores the result and clears the innermost (current) run flag. -/
def bam_stop (c : BamLoopCtx) (result : Int) : BamLoopCtx :=
  match c.run_flags with
  | [] => c
  | _ :: rest => { c with run_result := result, run_flags := false :: rest }

/-- bam_quit (src/bam.c lines 910-916): bam_stop, then set the quit
flag, which causes all nested event loops to stop. -/
def bam_quit (c : BamLoopCtx) (result : Int) : BamLoopCtx :=
  let c1 := bam_stop c result
  { c1 with quit_flag := true }

/-- The do-while loop of bam_start.  One iteration body (dirty clean,
host get_event, event dispatch, triggered callback) is abstracted as a
state transformer; the script lists the bodies of successive
iterations.  After each body the loop continues while this loop's local
run flag (the head of the chain, which is at the head again after any
balanced nested push/pop) is true and the quit flag is false.  Returns
none when the script is exhausted with the loop still running. -/
def bam_start_loop : List (BamLoopCtx → BamLoopCtx) → BamLoopCtx → Option BamLoopCtx
  | [], _ => none
  | body :: script, c =>
    let c1 := body c
    if c1.run_flags.headD false ∧ ¬ c1.quit_flag = true then bam_start_loop script c1
    else some c1

/-- bam_start (src/bam.c lines 799-893): if this is not a nested loop,
clear the quit flag; save the previous run-flag pointer and push a
fresh local run flag (initially true); run the do-while loop; restore
the previous run-flag pointer (pop); return the run result. -/
def bam_start (script : List (BamLoopCtx → BamLoopCtx)) (c : BamLoopCtx) :
    Option (Int × BamLoopCtx) :=
  let c0 := if c.run_flags = [] then { c with quit_flag := false } else c
  let c1 := { c0 with run_flags := true :: c0.run_flags }
  match bam_start_loop script c1 with
  | some c2 => some (c2.run_result, { c2 with run_flags := c2.run_flags.tail })
  | none => none

/-- A widget callback that starts a nested event loop with the given
iteration script and discards the returned result (keeping the context
state), as the editors do via bam_start. -/
def run_nested (script : List (BamLoopCtx → BamLoopCtx)) (c : BamLoopCtx) : BamLoopCtx :=
  match bam_start script c with
  | some rc => rc.2
  | none => c

-- ******** THEOREMS ********

/-- Pointwise meaning of rect_intersect: a point is contained in the
intersection exactly when it is contained in both arguments. -/
theorem rect_contains_point_intersect (A B : bam_rect_t) (x y : Int) :
    rect_contains_point (rect_intersect A B) x y =
      (rect_contains_point A x y && rect_contains_point B x y) := by
  rw [Bool.eq_iff_iff]
  simp only [rect_intersect, rect_contains_point, min_int, max_int,
    Bool.and_eq_true, decide_eq_true_eq, ge_iff_le]
  repeat' split
  all_goals omega

/-- C6: rect_intersect is idempotent on non-empty rectangles, its result
is never inverted below the second operand (x2 is clamped up to other.x1
and y2 up to other.y1), and repeated application computes the pointwise
triple intersection A∩B∩C. -/
theorem rect_intersect_idempotent_wellformed_assoc
    (A B C : bam_rect_t) (hA : rect_empty A = false) :
    rect_intersect A A = A ∧
    B.x1 ≤ (rect_intersect A B).x2 ∧ B.y1 ≤ (rect_intersect A B).y2 ∧
    (∀ x y : Int,
      rect_contains_point (rect_intersect (rect_intersect A B) C) x y =
        (rect_contains_point A x y && rect_contains_point B x y &&
         rect_contains_point C x y)) := by
  have hx : A.x1 < A.x2 ∧ A.y1 < A.y2 := by
    simp [rect_empty] at hA
    omega
  refine ⟨?_, ?_, ?_, ?_⟩
  · simp only [rect_intersect, min_int, max_int]
    cases A
    simp_all
    omega
  · simp only [rect_intersect, min_int, max_int]
    split <;> split <;> omega
  · simp only [rect_intersect, min_int, max_int]
    split <;> split <;> omega
  · intro x y
    rw [rect_contains_point_intersect, rect_contains_point_intersect,
      Bool.and_assoc]

/-- C6 witness: the theorem applied at concrete rectangles. -/
theorem rect_intersect_idempotent_wellformed_assoc_witness :
    rect_intersect ⟨0, 0, 4, 4⟩ ⟨0, 0, 4, 4⟩ = ⟨0, 0, 4, 4⟩ :=
  (rect_intersect_idempotent_wellformed_assoc ⟨0, 0, 4, 4⟩ ⟨1, 1, 3, 3⟩
    ⟨2, 2, 5, 5⟩ (by decide)).1

/-- The decoder strictly advances the input position. -/
theorem unicode_decode_utf8_lt (bytes : Nat → Nat) (input : Nat) :
    input < (unicode_decode_utf8 bytes input).1 := by
  simp only [unicode_decode_utf8]
  split <;> omega

/-- Fuel irrelevance for the metrics loop: any fuel at least
text_e - text_i computes the same value as fuel exactly text_e - text_i. -/
theorem metrics_go_fuel (get : Nat → Nat → Option Int) (font : Nat)
    (bytes : Nat → Nat) (text_e : Nat) :
    ∀ fuel text_i cursor_x, text_e - text_i ≤ fuel →
      metrics_go get font bytes text_e fuel text_i cursor_x =
        metrics_go get font bytes text_e (text_e - text_i) text_i cursor_x := by
  intro fuel
  induction fuel using Nat.strong_induction_on with
  | _ fuel ih =>
    intro i cur hle
    match fuel with
    | 0 =>
      have h0 : text_e - i = 0 := by omega
      rw [h0]
    | fuel + 1 =>
      by_cases hi : i < text_e
      · have hadv := unicode_decode_utf8_lt bytes i
        have he : text_e - i = (text_e - i - 1) + 1 := by omega
        rw [he]
        simp only [metrics_go, hi, if_pos]
        cases hg : get font (unicode_decode_utf8 bytes i).2 with
        | some a =>
          dsimp only
          rw [ih fuel (by omega) _ _ (by omega),
            ih (text_e - i - 1) (by omega) _ _ (by omega)]
        | none =>
          dsimp only
          rw [ih fuel (by omega) _ _ (by omega),
            ih (text_e - i - 1) (by omega) _ _ (by omega)]
      · have h0 : text_e - i = 0 := by omega
        rw [h0]
        simp [metrics_go, hi]

theorem toInt16_idem (z : Int) : toInt16 (toInt16 z) = toInt16 z := by
  unfold toInt16
  omega

theorem toInt16_add_left (x y : Int) :
    toInt16 (toInt16 x + y) = toInt16 (x + y) := by
  unfold toInt16
  omega

/-- The metrics loop computes the int16-wrapped running sum of the
x_advance values of the present glyphs. -/
theorem metrics_go_sum (get : Nat → Nat → Option Int) (font : Nat)
    (bytes : Nat → Nat) (text_e : Nat) :
    ∀ fuel text_i cursor_x, toInt16 cursor_x = cursor_x →
      metrics_go get font bytes text_e fuel text_i cursor_x =
        toInt16 (cursor_x +
          ((decode_codepoints bytes text_e fuel text_i).filterMap (get font)).sum) := by
  intro fuel
  induction fuel with
  | zero =>
    intro i cur hcur
    simp [metrics_go, decode_codepoints, hcur]
  | succ fuel ih =>
    intro i cur hcur
    by_cases hi : i < text_e
    · simp only [metrics_go, decode_codepoints, hi, if_pos]
      cases hg : get font (unicode_decode_utf8 bytes i).2 with
      | some a =>
        dsimp only
        rw [ih _ _ (toInt16_idem _), List.filterMap_cons_some hg,
          List.sum_cons, toInt16_add_left]
        ring_nf
      | none =>
        dsimp only
        rw [ih _ _ hcur, List.filterMap_cons_none hg]
    · simp [metrics_go, decode_codepoints, hi, hcur]

/-- C8: the decoder returns input + len where len is the table length
for the lead byte (indexed by its high five bits) and input + 1 when the
table yields 0; the table lengths are at most 4; hence the decoder
always advances, and the metrics loop bounded by a pre-known end
position is fuel-insensitive (it terminates within text_e - text_start
steps). -/
theorem utf8_decoder_always_advances (bytes : Nat → Nat) (input : Nat)
    (get : Nat → Nat → Option Int) (font text_start text_e fuel : Nat)
    (hfuel : text_e - text_start ≤ fuel) :
    ((unicode_decode_utf8 bytes input).1 =
      input + (if LENGTH_LUT.getD ((bytes input % 256) >>> 3) 0 = 0 then 1
               else LENGTH_LUT.getD ((bytes input % 256) >>> 3) 0)) ∧
    LENGTH_LUT.getD ((bytes input % 256) >>> 3) 0 ≤ 4 ∧
    input < (unicode_decode_utf8 bytes input).1 ∧
    metrics_go get font bytes text_e fuel text_start 0 =
      metrics_calc_string_width get font bytes text_start text_e := by
  refine ⟨?_, ?_, unicode_decode_utf8_lt bytes input, ?_⟩
  · simp only [unicode_decode_utf8]
    split <;> omega
  · have h256 : bytes input % 256 < 256 := Nat.mod_lt _ (by omega)
    have h32 : (bytes input % 256) >>> 3 < 32 := by
      rw [Nat.shiftRight_eq_div_pow]
      omega
    interval_cases h : (bytes input % 256) >>> 3 <;> simp [LENGTH_LUT]
  · rw [metrics_go_fuel get font bytes text_e fuel text_start 0 hfuel]
    rfl

/-- C8 witness: the theorem applied at a concrete buffer and fuel. -/
theorem utf8_decoder_always_advances_witness :
    (3 : Nat) - 0 ≤ 5 ∧
    metrics_go (fun _ _ => some 1) 0 (fun _ => 65) 3 5 0 0 =
      metrics_calc_string_width (fun _ _ => some 1) 0 (fun _ => 65) 0 3 :=
  ⟨by decide,
   (utf8_decoder_always_advances (fun _ => 65) 0 (fun _ _ => some 1) 0 0 3 5
      (by decide)).2.2.2⟩

/-- C9 counterexample: with a host whose glyph x_advance is 40000, the
computed width is not the exact sum of the advances: the (int16_t) cast
in the accumulation wraps it to -25536. -/
theorem metrics_width_not_exact_sum :
    metrics_calc_string_width (fun _ _ => some 40000) 0 (fun _ => 65) 0 1 ≠
      string_width_spec (fun _ _ => some 40000) 0 (fun _ => 65) 0 1 := by
  decide

/-- C9 (amended): metrics_calc_string_width returns the int16 truncation
of the sum of x_advance over the decoded codepoints whose glyph the host
reports present (equal to the exact sum whenever every partial sum fits
in int16); a codepoint reported missing contributes nothing. -/
theorem metrics_width_eq_toInt16_sum (get : Nat → Nat → Option Int)
    (font : Nat) (bytes : Nat → Nat) (text_start text_e : Nat) :
    metrics_calc_string_width get font bytes text_start text_e =
      toInt16 (string_width_spec get font bytes text_start text_e) := by
  unfold metrics_calc_string_width string_width_spec
  rw [metrics_go_sum get font bytes text_e _ _ 0 (by decide)]
  rw [zero_add]

/-- C5: on a display with 32 tile columns (1024 px wide, 32 px tiles,
pitch 1), marking the single-tile rectangle at column c of a row whose
bitmap word is all-zero yields a word with exactly one set bit, at bit
position 31 - c. -/
theorem dirty_mark_single_tile_column (c : Nat) (hc : c < 32) :
    dirty_mark_rect ⟨1024, 32, 32, 32, 1⟩ (fun _ => 0)
      (rect_init (32 * (c : Int)) 0 32 32) 0 = 2 ^ (31 - c) := by
  interval_cases c <;> decide

/-- C5 witness: the theorem applied at column 13. -/
theorem dirty_mark_single_tile_column_witness :
    dirty_mark_rect ⟨1024, 32, 32, 32, 1⟩ (fun _ => 0)
      (rect_init (32 * (13 : Int)) 0 32 32) 0 = 2 ^ (31 - 13) :=
  dirty_mark_single_tile_column 13 (by decide)

/-- C1 counterexample: bam_set_widget_enabled does touch a widget in the
BAM_STATE_PRESSED state: with the flag true it moves the state to
BAM_STATE_ENABLED, so the state field does not stay BAM_STATE_PRESSED. -/
theorem set_widget_enabled_touches_pressed :
    (bam_set_widget_enabled ⟨1024, 32, 32, 32, 1⟩ (fun _ => 0)
      { state := bam_state_t.BAM_STATE_PRESSED, rect := ⟨0, 0, 32, 32⟩ }
      true).1.state ≠ bam_state_t.BAM_STATE_PRESSED := by
  decide

/-- C1 (amended): bam_set_widget_enabled always drives the state field
to BAM_STATE_ENABLED (flag true) or BAM_STATE_DISABLED (flag false),
regardless of the previous state; in particular a widget in the
BAM_STATE_PRESSED state is moved out of it rather than left untouched. -/
theorem set_widget_enabled_sets_state (g : BamGeom) (bm : DirtyBitmap)
    (w : bam_widget_t) (enabled : Bool) :
    (bam_set_widget_enabled g bm w enabled).1.state =
      (if enabled then bam_state_t.BAM_STATE_ENABLED
       else bam_state_t.BAM_STATE_DISABLED) := by
  unfold bam_set_widget_enabled
  cases enabled <;> cases hw : w.state <;> simp_all

/-- C10: bam_get_widget_enabled returns true iff the widget state is
exactly BAM_STATE_ENABLED; in particular it is false for a widget in the
BAM_STATE_PRESSED state. -/
theorem get_widget_enabled_iff_enabled :
    (∀ s : bam_state_t,
      bam_get_widget_enabled s = true ↔ s = bam_state_t.BAM_STATE_ENABLED) ∧
    bam_get_widget_enabled bam_state_t.BAM_STATE_PRESSED = false := by
  constructor
  · intro s
    cases s <;> simp [bam_get_widget_enabled]
  · decide

/-- Length and remaining capacity of one grid row. -/
theorem grid_row_widgets_length (width height h_spacing : Int) :
    ∀ (n : Nat) (cap : Nat) (x y : Int),
      (grid_row_widgets width height h_spacing x y n cap).1.length = min n cap ∧
      (grid_row_widgets width height h_spacing x y n cap).2 = cap - min n cap := by
  intro n
  induction n with
  | zero => intro cap x y; simp [grid_row_widgets]
  | succ n ih =>
    intro cap x y
    match cap with
    | 0 => simp [grid_row_widgets]
    | cap + 1 =>
      have h := ih cap (x + width + h_spacing) y
      simp only [grid_row_widgets, List.length_cons]
      omega

/-- The k-th rectangle of one grid row. -/
theorem grid_row_widgets_getElem (width height h_spacing : Int) :
    ∀ (n : Nat) (cap : Nat) (x y : Int) (k : Nat), k < min n cap →
      (grid_row_widgets width height h_spacing x y n cap).1[k]? =
        some (rect_init (x + k * (width + h_spacing)) y width height) := by
  intro n
  induction n with
  | zero => intro cap x y k hk; omega
  | succ n ih =>
    intro cap x y k hk
    match cap with
    | 0 => omega
    | cap + 1 =>
      match k with
      | 0 =>
        simp [grid_row_widgets]
      | k + 1 =>
        have h := ih cap (x + width + h_spacing) y k (by omega)
        simp only [grid_row_widgets, List.getElem?_cons_succ]
        rw [h]
        congr 2
        push_cast
        ring

/-- Length of the full grid walk: row-major cells bounded by capacity. -/
theorem grid_rows_widgets_length (x0 width height h_spacing v_spacing : Int)
    (n_cols : Nat) :
    ∀ (n_rows : Nat) (cap : Nat) (y : Int),
      (grid_rows_widgets x0 width height h_spacing v_spacing n_cols y n_rows cap).length =
        min (n_cols * n_rows) cap := by
  intro n_rows
  induction n_rows with
  | zero => intro cap y; simp [grid_rows_widgets]
  | succ n ih =>
    intro cap y
    have hr := grid_row_widgets_length width height h_spacing n_cols cap x0 y
    simp only [grid_rows_widgets, List.length_append, hr.1, hr.2,
      ih (cap - min n_cols cap) (y + height + v_spacing)]
    rw [Nat.mul_succ]
    omega

/-- The k-th rectangle of the full grid walk, in row-major order. -/
theorem grid_rows_widgets_getElem (x0 width height h_spacing v_spacing : Int)
    (n_cols : Nat) (hpos : 0 < n_cols) :
    ∀ (n_rows : Nat) (cap : Nat) (y : Int) (k : Nat), k < min (n_cols * n_rows) cap →
      (grid_rows_widgets x0 width height h_spacing v_spacing n_cols y n_rows cap)[k]? =
        some (rect_init (x0 + ((k % n_cols : Nat) : Int) * (width + h_spacing))
          (y + ((k / n_cols : Nat) : Int) * (height + v_spacing)) width height) := by
  intro n_rows
  induction n_rows with
  | zero => intro cap y k hk; simp at hk
  | succ n ih =>
    intro cap y k hk
    have hr := grid_row_widgets_length width height h_spacing n_cols cap x0 y
    by_cases hcase : k < min n_cols cap
    · have hget := grid_row_widgets_getElem width height h_spacing n_cols cap x0 y k hcase
      have hkc : k < n_cols := by omega
      simp only [grid_rows_widgets, List.getElem?_append_left (by omega : k < (grid_row_widgets width height h_spacing x0 y n_cols cap).1.length)]
      rw [hget, Nat.mod_eq_of_lt hkc, Nat.div_eq_of_lt hkc]
      norm_num
    · -- k lies in a later row; here the first row must be full
      have hcap : n_cols ≤ cap := by
        rw [Nat.mul_succ] at hk
        rcases Nat.lt_or_ge cap n_cols with h | h
        · omega
        · exact h
      have hmin : min n_cols cap = n_cols := by omega
      have hklen : ¬ k < (grid_row_widgets width height h_spacing x0 y n_cols cap).1.length := by
        rw [hr.1]; omega
      simp only [grid_rows_widgets, List.getElem?_append_right (by omega : (grid_row_widgets width height h_spacing x0 y n_cols cap).1.length ≤ k)]
      rw [hr.1, hr.2, hmin]
      have hkn : n_cols ≤ k := by omega
      have hbound : k - n_cols < min (n_cols * n) (cap - n_cols) := by
        rw [Nat.mul_succ] at hk
        omega
      rw [ih (cap - n_cols) (y + height + v_spacing) (k - n_cols) hbound]
      have hmod : (k - n_cols) % n_cols = k % n_cols := by
        conv_rhs => rw [show k = (k - n_cols) + n_cols by omega]
        rw [Nat.add_mod_right]
      have hdiv : k / n_cols = (k - n_cols) / n_cols + 1 := by
        conv_lhs => rw [show k = (k - n_cols) + n_cols by omega]
        rw [Nat.add_div_right _ hpos]
      rw [hmod, hdiv]
      congr 2
      push_cast
      ring

/-- C7: bam_layout_grid creates cells row-major with width
(W - hs(n_cols-1))/n_cols and height (H - vs(n_rows-1))/n_rows, at
positions stepping by width+hs and height+vs from the bounds origin,
stopping when cells or handle capacity run out; degenerate inputs create
nothing; and grid(3,2) on bounds (0,0,100,60) with spacing 10 yields the
six 26x25 widgets at (0,0),(36,0),(72,0),(0,35),(36,35),(72,35). -/
theorem bam_layout_grid_correct (n_cols n_rows : Int) (bounds : bam_rect_t)
    (h_spacing v_spacing : Int) (n_handles : Nat) :
    ((n_cols ≤ 0 ∨ n_rows ≤ 0 ∨ rect_empty bounds = true) →
      bam_layout_grid n_cols n_rows bounds h_spacing v_spacing n_handles = []) ∧
    (0 < n_cols → 0 < n_rows → rect_empty bounds = false →
      (bam_layout_grid n_cols n_rows bounds h_spacing v_spacing n_handles).length =
        min (n_cols.toNat * n_rows.toNat) n_handles ∧
      (∀ k, k < min (n_cols.toNat * n_rows.toNat) n_handles →
        (bam_layout_grid n_cols n_rows bounds h_spacing v_spacing n_handles)[k]? =
          some (rect_init
            (bounds.x1 + ((k % n_cols.toNat : Nat) : Int) *
              ((rect_width bounds - max_int 0 h_spacing * (n_cols - 1)).tdiv n_cols +
                max_int 0 h_spacing))
            (bounds.y1 + ((k / n_cols.toNat : Nat) : Int) *
              ((rect_height bounds - max_int 0 v_spacing * (n_rows - 1)).tdiv n_rows +
                max_int 0 v_spacing))
            ((rect_width bounds - max_int 0 h_spacing * (n_cols - 1)).tdiv n_cols)
            ((rect_height bounds - max_int 0 v_spacing * (n_rows - 1)).tdiv n_rows)))) ∧
    bam_layout_grid 3 2 ⟨0, 0, 100, 60⟩ 10 10 6 =
      [⟨0, 0, 26, 25⟩, ⟨36, 0, 62, 25⟩, ⟨72, 0, 98, 25⟩,
       ⟨0, 35, 26, 60⟩, ⟨36, 35, 62, 60⟩, ⟨72, 35, 98, 60⟩] := by
  refine ⟨?_, ?_, by decide⟩
  · intro h
    have hcond : (decide (n_cols ≤ 0) || decide (n_rows ≤ 0) || rect_empty bounds) = true := by
      rcases h with h | h | h <;> simp [h]
    simp [bam_layout_grid, hcond]
  · intro hc hr hb
    have hcond : (decide (n_cols ≤ 0) || decide (n_rows ≤ 0) || rect_empty bounds) = false := by
      simp [hb]
      omega
    have hposN : 0 < n_cols.toNat := by omega
    constructor
    · simp only [bam_layout_grid, hcond, Bool.false_eq_true, if_false]
      exact grid_rows_widgets_length _ _ _ _ _ _ _ _ _
    · intro k hk
      simp only [bam_layout_grid, hcond, Bool.false_eq_true, if_false]
      exact grid_rows_widgets_getElem _ _ _ _ _ _ hposN _ _ _ k hk

/-- C7 witness: the theorem applied at row 3, column 2 with concrete
hypotheses discharged. -/
theorem bam_layout_grid_correct_witness :
    (bam_layout_grid 3 2 ⟨0, 0, 100, 60⟩ 10 10 6).length = min (3 * 2) 6 := by
  have h := (bam_layout_grid_correct 3 2 ⟨0, 0, 100, 60⟩ 10 10 6).2.1
    (by decide) (by decide) (by decide)
  exact h.1

/-- C4: in nested event loops on one context, bam_stop r called from an
inner loop makes only that innermost loop return (with result r) and
the enclosing loop keeps running (here it executes its next iteration
body and stops with r2); bam_quit r called from the innermost of three
nested loops makes that loop and every outer loop return at its next
iteration check, each returning the last recorded result (the shared
run_result field, here r), without executing any further bodies (b1 and
b2 are arbitrary and never run). -/
theorem nested_loop_stop_quit (c : BamLoopCtx) (h : c.run_flags = [])
    (r r2 : Int) (b1 b2 : BamLoopCtx → BamLoopCtx) :
    (bam_start [run_nested [fun c1 => bam_stop c1 r], fun c1 => bam_stop c1 r2] c =
      some (r2, { quit_flag := false, run_flags := [], run_result := r2 })) ∧
    (∀ (rest : List Bool) (q : Bool) (res0 : Int),
      bam_start [fun c1 => bam_stop c1 r] ⟨q, true :: rest, res0⟩ =
        some (r, ⟨q, true :: rest, r⟩)) ∧
    (bam_start
        [fun c1 => run_nested
          [fun c2 => run_nested [fun c3 => bam_quit c3 r] c2, b1] c1, b2] c =
      some (r, { quit_flag := true, run_flags := [], run_result := r })) := by
  obtain ⟨q0, flags, res0⟩ := c
  simp only at h
  subst h
  refine ⟨?_, ?_, ?_⟩
  · simp [bam_start, bam_start_loop, run_nested, bam_stop]
  · intro rest q res0
    simp [bam_start, bam_start_loop, bam_stop]
  · simp [bam_start, bam_start_loop, run_nested, bam_stop, bam_quit]

/-- C4 witness: the theorem applied at a concrete fresh context. -/
theorem nested_loop_stop_quit_witness :
    bam_start [run_nested [fun c1 => bam_stop c1 7], fun c1 => bam_stop c1 9]
        ⟨false, [], 0⟩ =
      some (9, { quit_flag := false, run_flags := [], run_result := 9 }) :=
  (nested_loop_stop_quit ⟨false, [], 0⟩ rfl 7 9 id id).1

/-- mark_mid_words leaves words outside [a, a+n) unchanged. -/
theorem mark_mid_words_outside : ∀ (n a : Nat) (bm : DirtyBitmap) (j : Nat),
    j < a ∨ a + n ≤ j → mark_mid_words bm a n j = bm j := by
  intro n
  induction n with
  | zero => intro a bm j h; rfl
  | succ n ih =>
    intro a bm j h
    simp only [mark_mid_words]
    rw [ih (a + 1) _ j (by omega)]
    simp only [bitmap_write]
    rw [if_neg (by omega)]

/-- mark_mid_words sets every word in [a, a+n) to all-ones. -/
theorem mark_mid_words_inside : ∀ (n a : Nat) (bm : DirtyBitmap) (j : Nat),
    a ≤ j → j < a + n → mark_mid_words bm a n j = BAM_UINT32_MASK := by
  intro n
  induction n with
  | zero => intro a bm j h1 h2; omega
  | succ n ih =>
    intro a bm j h1 h2
    simp only [mark_mid_words]
    by_cases hj : j = a
    · rw [mark_mid_words_outside n (a + 1) _ j (by omega)]
      simp [bitmap_write, hj]
    · exact ih (a + 1) _ j (by omega) (by omega)

/-- mark_rows_same leaves words off the row stride unchanged. -/
theorem mark_rows_same_outside (pitch word : Nat) :
    ∀ (n idx : Nat) (bm : DirtyBitmap) (j : Nat),
      (∀ k, k < n → j ≠ idx + k * pitch) →
      mark_rows_same pitch word bm idx n j = bm j := by
  intro n
  induction n with
  | zero => intro idx bm j h; rfl
  | succ n ih =>
    intro idx bm j h
    simp only [mark_rows_same]
    rw [ih (idx + pitch) _ j ?side]
    case side =>
      intro k hk
      have hn := h (k + 1) (by omega)
      have he : idx + (k + 1) * pitch = idx + pitch + k * pitch := by ring
      omega
    simp only [bitmap_write_or]
    have h0 := h 0 (by omega)
    rw [if_neg (by omega)]

/-- mark_rows_same ORs the word mask at each row's word. -/
theorem mark_rows_same_at (pitch word : Nat) (hp : 0 < pitch) :
    ∀ (n idx : Nat) (bm : DirtyBitmap) (k : Nat), k < n →
      mark_rows_same pitch word bm idx n (idx + k * pitch) =
        bm (idx + k * pitch) ||| word := by
  intro n
  induction n with
  | zero => intro idx bm k hk; omega
  | succ n ih =>
    intro idx bm k hk
    simp only [mark_rows_same]
    match k with
    | 0 =>
      rw [mark_rows_same_outside pitch word n (idx + pitch) _ (idx + 0 * pitch) ?side]
      case side =>
        intro k2 hk2
        omega
      simp [bitmap_write_or]
    | k + 1 =>
      have he : idx + (k + 1) * pitch = (idx + pitch) + k * pitch := by ring
      rw [he, ih (idx + pitch) _ k (by omega)]
      simp only [bitmap_write_or]
      rw [if_neg (by omega)]

/-- mark_split_row leaves words outside [li, ri] unchanged. -/
theorem mark_split_row_outside (bm : DirtyBitmap) (li ri lw rw j : Nat)
    (hlr : li < ri) (hj : j < li ∨ ri < j) :
    mark_split_row bm li ri lw rw j = bm j := by
  simp only [mark_split_row, bitmap_write_or]
  rw [if_neg (by omega), mark_mid_words_outside _ _ _ _ (by omega)]
  simp only [bitmap_write_or]
  rw [if_neg (by omega)]

/-- mark_split_row ORs the left mask into the left word. -/
theorem mark_split_row_left (bm : DirtyBitmap) (li ri lw rw : Nat)
    (hlr : li < ri) :
    mark_split_row bm li ri lw rw li = bm li ||| lw := by
  simp only [mark_split_row, bitmap_write_or]
  rw [if_neg (by omega), mark_mid_words_outside _ _ _ _ (by omega)]
  simp [bitmap_write_or]

/-- mark_split_row ORs the right mask into the right word. -/
theorem mark_split_row_right (bm : DirtyBitmap) (li ri lw rw : Nat)
    (hlr : li < ri) :
    mark_split_row bm li ri lw rw ri = bm ri ||| rw := by
  simp only [mark_split_row, bitmap_write_or, if_true]
  rw [mark_mid_words_outside _ _ _ _ (by omega)]
  simp only [bitmap_write_or]
  rw [if_neg (by omega)]

/-- mark_split_row sets words strictly between the left and right word
to all-ones. -/
theorem mark_split_row_mid (bm : DirtyBitmap) (li ri lw rw j : Nat)
    (h1 : li < j) (h2 : j < ri) :
    mark_split_row bm li ri lw rw j = BAM_UINT32_MASK := by
  simp only [mark_split_row, bitmap_write_or]
  rw [if_neg (by omega)]
  exact mark_mid_words_inside _ _ _ _ (by omega) (by omega)

/-- mark_rows_split leaves words outside every row range unchanged. -/
theorem mark_rows_split_outside (pitch lw rw : Nat) :
    ∀ (n li ri : Nat) (bm : DirtyBitmap) (j : Nat), li < ri →
      (∀ k, k < n → j < li + k * pitch ∨ ri + k * pitch < j) →
      mark_rows_split pitch lw rw bm li ri n j = bm j := by
  intro n
  induction n with
  | zero => intro li ri bm j hlr h; rfl
  | succ n ih =>
    intro li ri bm j hlr h
    simp only [mark_rows_split]
    rw [ih (li + pitch) (ri + pitch) _ j (by omega) ?side]
    case side =>
      intro k hk
      have hn := h (k + 1) (by omega)
      have e1 : li + (k + 1) * pitch = li + pitch + k * pitch := by ring
      have e2 : ri + (k + 1) * pitch = ri + pitch + k * pitch := by ring
      omega
    have h0 := h 0 (by omega)
    exact mark_split_row_outside bm li ri lw rw j hlr (by omega)

/-- mark_rows_split ORs the left mask at each row's left word. -/
theorem mark_rows_split_at_left (pitch lw rw : Nat) :
    ∀ (n li ri : Nat) (bm : DirtyBitmap) (k : Nat), li < ri → ri < li + pitch →
      k < n →
      mark_rows_split pitch lw rw bm li ri n (li + k * pitch) =
        bm (li + k * pitch) ||| lw := by
  intro n
  induction n with
  | zero => intro li ri bm k hlr hrp hk; omega
  | succ n ih =>
    intro li ri bm k hlr hrp hk
    simp only [mark_rows_split]
    match k with
    | 0 =>
      rw [mark_rows_split_outside pitch lw rw n (li + pitch) (ri + pitch) _
        (li + 0 * pitch) (by omega) ?side]
      case side =>
        intro k2 hk2
        omega
      have e0 : li + 0 * pitch = li := by omega
      rw [e0, mark_split_row_left bm li ri lw rw hlr]
    | k + 1 =>
      have e1 : li + (k + 1) * pitch = (li + pitch) + k * pitch := by ring
      rw [e1, ih (li + pitch) (ri + pitch) _ k (by omega) (by omega) (by omega),
        mark_split_row_outside bm li ri lw rw _ hlr (by omega)]

/-- mark_rows_split ORs the right mask at each row's right word. -/
theorem mark_rows_split_at_right (pitch lw rw : Nat) :
    ∀ (n li ri : Nat) (bm : DirtyBitmap) (k : Nat), li < ri → ri < li + pitch →
      k < n →
      mark_rows_split pitch lw rw bm li ri n (ri + k * pitch) =
        bm (ri + k * pitch) ||| rw := by
  intro n
  induction n with
  | zero => intro li ri bm k hlr hrp hk; omega
  | succ n ih =>
    intro li ri bm k hlr hrp hk
    simp only [mark_rows_split]
    match k with
    | 0 =>
      rw [mark_rows_split_outside pitch lw rw n (li + pitch) (ri + pitch) _
        (ri + 0 * pitch) (by omega) ?side]
      case side =>
        intro k2 hk2
        omega
      have e0 : ri + 0 * pitch = ri := by omega
      rw [e0, mark_split_row_right bm li ri lw rw hlr]
    | k + 1 =>
      have e1 : ri + (k + 1) * pitch = (ri + pitch) + k * pitch := by ring
      rw [e1, ih (li + pitch) (ri + pitch) _ k (by omega) (by omega) (by omega),
        mark_split_row_outside bm li ri lw rw _ hlr (by omega)]

/-- mark_rows_split sets each row's strictly-interior words to all-ones. -/
theorem mark_rows_split_at_mid (pitch lw rw : Nat) :
    ∀ (n li ri : Nat) (bm : DirtyBitmap) (k j : Nat), li < ri → ri < li + pitch →
      k < n → li + k * pitch < j → j < ri + k * pitch →
      mark_rows_split pitch lw rw bm li ri n j = BAM_UINT32_MASK := by
  intro n
  induction n with
  | zero => intro li ri bm k j hlr hrp hk h1 h2; omega
  | succ n ih =>
    intro li ri bm k j hlr hrp hk h1 h2
    simp only [mark_rows_split]
    match k with
    | 0 =>
      have e0l : li + 0 * pitch = li := by omega
      have e0r : ri + 0 * pitch = ri := by omega
      rw [e0l] at h1
      rw [e0r] at h2
      rw [mark_rows_split_outside pitch lw rw n (li + pitch) (ri + pitch) _
        j (by omega) ?side]
      case side =>
        intro k2 hk2
        omega
      exact mark_split_row_mid bm li ri lw rw j h1 h2
    | k + 1 =>
      have e1 : li + (k + 1) * pitch = (li + pitch) + k * pitch := by ring
      have e2 : ri + (k + 1) * pitch = (ri + pitch) + k * pitch := by ring
      rw [e1] at h1
      rw [e2] at h2
      exact ih (li + pitch) (ri + pitch) _ k j (by omega) (by omega) (by omega) h1 h2

theorem BAM_UINT32_MASK_eq : BAM_UINT32_MASK = 2 ^ 32 - 1 := by
  norm_num [BAM_UINT32_MASK]

/-- Bit (31 - c mod 32) of the left word mask UINT32_MAX >> (cx1 mod 32)
is set exactly when the in-word column of c is at least that of cx1. -/
theorem left_word_testBit (cx1 c : Nat) :
    (BAM_UINT32_MASK >>> (cx1 % 32)).testBit (31 - c % 32) =
      decide (cx1 % 32 ≤ c % 32) := by
  rw [BAM_UINT32_MASK_eq, Nat.testBit_shiftRight, Nat.testBit_two_pow_sub_one]
  have h1 : c % 32 < 32 := Nat.mod_lt _ (by omega)
  have h2 : cx1 % 32 < 32 := Nat.mod_lt _ (by omega)
  simp only [decide_eq_decide]
  omega

/-- Bit (31 - c mod 32) of the right word mask
UINT32_MAX << (31 - cx2 mod 32) (wrapped to 32 bits) is set exactly when
the in-word column of c is at most that of cx2. -/
theorem right_word_testBit (cx2 c : Nat) :
    ((BAM_UINT32_MASK <<< (31 - cx2 % 32)) % 2 ^ 32).testBit (31 - c % 32) =
      decide (c % 32 ≤ cx2 % 32) := by
  rw [BAM_UINT32_MASK_eq, Nat.testBit_mod_two_pow, Nat.testBit_shiftLeft,
    Nat.testBit_two_pow_sub_one]
  have h1 : c % 32 < 32 := Nat.mod_lt _ (by omega)
  have h2 : cx2 % 32 < 32 := Nat.mod_lt _ (by omega)
  rw [Bool.eq_iff_iff]
  simp only [Bool.and_eq_true, decide_eq_true_eq, ge_iff_le]
  omega

theorem bitmap_write_or_mono (bm : DirtyBitmap) (i v j b : Nat)
    (h : (bm j).testBit b = true) :
    ((bitmap_write_or bm i v) j).testBit b = true := by
  simp only [bitmap_write_or]
  split
  · simp [Nat.testBit_lor, h]
  · exact h

theorem mark_mid_words_mono : ∀ (n a : Nat) (bm : DirtyBitmap) (j b : Nat),
    b < 32 → (bm j).testBit b = true →
    ((mark_mid_words bm a n) j).testBit b = true := by
  intro n
  induction n with
  | zero => intro a bm j b hb h; exact h
  | succ n ih =>
    intro a bm j b hb h
    simp only [mark_mid_words]
    apply ih
    · exact hb
    · simp only [bitmap_write]
      split
      · rw [BAM_UINT32_MASK_eq, Nat.testBit_two_pow_sub_one]
        simpa using hb
      · exact h

theorem mark_rows_same_mono (pitch word : Nat) :
    ∀ (n idx : Nat) (bm : DirtyBitmap) (j b : Nat),
      (bm j).testBit b = true →
      ((mark_rows_same pitch word bm idx n) j).testBit b = true := by
  intro n
  induction n with
  | zero => intro idx bm j b h; exact h
  | succ n ih =>
    intro idx bm j b h
    simp only [mark_rows_same]
    exact ih _ _ j b (bitmap_write_or_mono bm idx word j b h)

theorem mark_split_row_mono (bm : DirtyBitmap) (li ri lw rw j b : Nat)
    (hb : b < 32) (h : (bm j).testBit b = true) :
    ((mark_split_row bm li ri lw rw) j).testBit b = true := by
  unfold mark_split_row
  exact bitmap_write_or_mono _ _ _ _ _
    (mark_mid_words_mono _ _ _ _ _ hb (bitmap_write_or_mono _ _ _ _ _ h))

theorem mark_rows_split_mono (pitch lw rw : Nat) :
    ∀ (n li ri : Nat) (bm : DirtyBitmap) (j b : Nat), b < 32 →
      (bm j).testBit b = true →
      ((mark_rows_split pitch lw rw bm li ri n) j).testBit b = true := by
  intro n
  induction n with
  | zero => intro li ri bm j b hb h; exact h
  | succ n ih =>
    intro li ri bm j b hb h
    simp only [mark_rows_split]
    exact ih _ _ _ j b hb (mark_split_row_mono bm li ri lw rw j b hb h)

/-- dirty_mark_tiles never clears a bit of a well-formed word. -/
theorem dirty_mark_tiles_mono (pitch : Nat) (bm : DirtyBitmap)
    (cx1 cy1 cx2 cy2 j b : Nat) (hb : b < 32)
    (h : (bm j).testBit b = true) :
    ((dirty_mark_tiles pitch bm cx1 cy1 cx2 cy2) j).testBit b = true := by
  unfold dirty_mark_tiles
  split
  · exact mark_rows_same_mono _ _ _ _ bm j b h
  · exact mark_rows_split_mono _ _ _ _ _ _ bm j b hb h

theorem row_word_lt (p r1 w1 r2 w2 : Nat) (hw1 : w1 < p) (hr : r1 < r2) :
    r1 * p + w1 < r2 * p + w2 := by
  have h1 : (r1 + 1) * p ≤ r2 * p := Nat.mul_le_mul_right p (by omega)
  have e : (r1 + 1) * p = r1 * p + p := by ring
  omega

theorem row_word_inj (p r1 w1 r2 w2 : Nat) (hw1 : w1 < p) (hw2 : w2 < p)
    (h : r1 * p + w1 = r2 * p + w2) : r1 = r2 ∧ w1 = w2 := by
  rcases Nat.lt_trichotomy r1 r2 with hlt | heq | hgt
  · have := row_word_lt p r1 w1 r2 w2 hw1 hlt
    omega
  · subst heq
    omega
  · have := row_word_lt p r2 w2 r1 w1 hw2 hgt
    omega

/-- Every tile (c, r) inside the inclusive tile box marked by
dirty_mark_tiles has its dirty bit set afterwards. -/
theorem dirty_mark_tiles_inside (pitch : Nat) (bm : DirtyBitmap)
    (cx1 cy1 cx2 cy2 c r : Nat) (hp : 0 < pitch) (hxw : cx2 < 32 * pitch)
    (hc1 : cx1 ≤ c) (hc2 : c ≤ cx2) (hr1 : cy1 ≤ r) (hr2 : r ≤ cy2) :
    tile_bit (dirty_mark_tiles pitch bm cx1 cy1 cx2 cy2) pitch c r = true := by
  obtain ⟨k, rfl⟩ : ∃ k, r = cy1 + k := ⟨r - cy1, by omega⟩
  have hkn : k < cy2 + 1 - cy1 := by omega
  simp only [dirty_mark_tiles, tile_bit]
  split
  next hsame =>
    have hdiv : cx1 / 32 = cx2 / 32 := by omega
    have hcd : c / 32 = cx1 / 32 := by omega
    have hidx : (cy1 + k) * pitch + c / 32 = (cy1 * pitch + cx1 / 32) + k * pitch := by
      rw [hcd]; ring
    rw [hidx, mark_rows_same_at pitch _ hp _ _ bm k hkn, Nat.testBit_lor,
      Nat.testBit_land, left_word_testBit, right_word_testBit]
    have hl : cx1 % 32 ≤ c % 32 := by omega
    have hr : c % 32 ≤ cx2 % 32 := by omega
    simp [hl, hr]
  next hdiff =>
    have hlt : cx1 / 32 < cx2 / 32 := by omega
    have hlr : cy1 * pitch + cx1 / 32 < cy1 * pitch + cx2 / 32 := by omega
    have hrp : cy1 * pitch + cx2 / 32 < cy1 * pitch + cx1 / 32 + pitch := by omega
    rcases Nat.lt_trichotomy (c / 32) (cx2 / 32) with hcw | hcw | hcw
    · rcases Nat.eq_or_lt_of_le (show cx1 / 32 ≤ c / 32 by omega) with hce | hce
      · -- c lies in the left word of its row
        have hidx : (cy1 + k) * pitch + c / 32 =
            (cy1 * pitch + cx1 / 32) + k * pitch := by
          rw [← hce]; ring
        rw [hidx,
          mark_rows_split_at_left pitch _ _ _ _ _ bm k hlr hrp hkn,
          Nat.testBit_lor, left_word_testBit]
        have hl : cx1 % 32 ≤ c % 32 := by omega
        simp [hl]
      · -- c lies in a strictly interior word of its row
        have e : (cy1 + k) * pitch = cy1 * pitch + k * pitch := by ring
        have hidxl : (cy1 * pitch + cx1 / 32) + k * pitch <
            (cy1 + k) * pitch + c / 32 := by omega
        have hidxr : (cy1 + k) * pitch + c / 32 <
            (cy1 * pitch + cx2 / 32) + k * pitch := by omega
        rw [mark_rows_split_at_mid pitch _ _ _ _ _ bm k _ hlr hrp hkn hidxl hidxr,
          BAM_UINT32_MASK_eq, Nat.testBit_two_pow_sub_one]
        simp only [decide_eq_true_eq]
        omega
    · -- c lies in the right word of its row
      have hidx : (cy1 + k) * pitch + c / 32 =
          (cy1 * pitch + cx2 / 32) + k * pitch := by
        rw [hcw]; ring
      rw [hidx,
        mark_rows_split_at_right pitch _ _ _ _ _ bm k hlr hrp hkn,
        Nat.testBit_lor, right_word_testBit]
      have hr : c % 32 ≤ cx2 % 32 := by omega
      simp [hr]
    · omega

/-- A tile (c, r) outside the inclusive tile box marked by
dirty_mark_tiles keeps its previous dirty bit. -/
theorem dirty_mark_tiles_outside (pitch : Nat) (bm : DirtyBitmap)
    (cx1 cy1 cx2 cy2 c r : Nat) (hp : 0 < pitch)
    (hx12 : cx1 ≤ cx2) (hxw : cx2 < 32 * pitch) (hcw : c < 32 * pitch)
    (hout : ¬ (cx1 ≤ c ∧ c ≤ cx2 ∧ cy1 ≤ r ∧ r ≤ cy2)) :
    tile_bit (dirty_mark_tiles pitch bm cx1 cy1 cx2 cy2) pitch c r =
      tile_bit bm pitch c r := by
  have hw1 : cx1 / 32 < pitch := by omega
  have hw2 : cx2 / 32 < pitch := by omega
  have hwc : c / 32 < pitch := by omega
  simp only [dirty_mark_tiles, tile_bit]
  split
  next hsame =>
    have hdiv : cx1 / 32 = cx2 / 32 := by omega
    by_cases hrow : cy1 ≤ r ∧ r ≤ cy2
    · by_cases hword : c / 32 = cx1 / 32
      · obtain ⟨k, rfl⟩ : ∃ k, r = cy1 + k := ⟨r - cy1, by omega⟩
        have hidx : (cy1 + k) * pitch + c / 32 =
            (cy1 * pitch + cx1 / 32) + k * pitch := by
          rw [hword]; ring
        rw [hidx, mark_rows_same_at pitch _ hp _ _ bm k (by omega),
          Nat.testBit_lor, Nat.testBit_land, left_word_testBit,
          right_word_testBit]
        have hmiss : ¬ (cx1 % 32 ≤ c % 32) ∨ ¬ (c % 32 ≤ cx2 % 32) := by omega
        rcases hmiss with h | h <;> simp [h]
      · rw [mark_rows_same_outside pitch _ _ _ bm _ ?side]
        case side =>
          intro k2 hk2 he
          have e : (cy1 * pitch + cx1 / 32) + k2 * pitch =
              (cy1 + k2) * pitch + cx1 / 32 := by ring
          rw [e] at he
          have := row_word_inj pitch r (c / 32) (cy1 + k2) (cx1 / 32) hwc hw1 he
          omega
    · rw [mark_rows_same_outside pitch _ _ _ bm _ ?side]
      case side =>
        intro k2 hk2 he
        have e : (cy1 * pitch + cx1 / 32) + k2 * pitch =
            (cy1 + k2) * pitch + cx1 / 32 := by ring
        rw [e] at he
        have := row_word_inj pitch r (c / 32) (cy1 + k2) (cx1 / 32) hwc hw1 he
        omega
  next hdiff =>
    have hlt : cx1 / 32 < cx2 / 32 := by omega
    have hlr : cy1 * pitch + cx1 / 32 < cy1 * pitch + cx2 / 32 := by omega
    have hrp : cy1 * pitch + cx2 / 32 < cy1 * pitch + cx1 / 32 + pitch := by omega
    by_cases hrow : cy1 ≤ r ∧ r ≤ cy2
    · obtain ⟨k, rfl⟩ : ∃ k, r = cy1 + k := ⟨r - cy1, by omega⟩
      rcases Nat.lt_trichotomy (c / 32) (cx1 / 32) with hcw1 | hcw1 | hcw1
      · -- word strictly left of every written word of the row
        rw [mark_rows_split_outside pitch _ _ _ _ _ bm _ hlr ?side]
        case side =>
          intro k2 hk2
          have el : (cy1 * pitch + cx1 / 32) + k2 * pitch =
              (cy1 + k2) * pitch + cx1 / 32 := by ring
          have er : (cy1 * pitch + cx2 / 32) + k2 * pitch =
              (cy1 + k2) * pitch + cx2 / 32 := by ring
          rcases Nat.lt_trichotomy k k2 with h | h | h
          · left
            rw [el]
            exact row_word_lt pitch (cy1 + k) (c / 32) (cy1 + k2) (cx1 / 32)
              hwc (by omega)
          · left
            rw [el, h]
            omega
          · right
            rw [er]
            exact row_word_lt pitch (cy1 + k2) (cx2 / 32) (cy1 + k) (c / 32)
              hw2 (by omega)
      · -- c sits in the left written word but its in-word column is left
        -- of cx1 (c < cx1 here)
        have hclt : c < cx1 := by omega
        have hidx : (cy1 + k) * pitch + c / 32 =
            (cy1 * pitch + cx1 / 32) + k * pitch := by
          rw [hcw1]; ring
        rw [hidx, mark_rows_split_at_left pitch _ _ _ _ _ bm k hlr hrp (by omega),
          Nat.testBit_lor, left_word_testBit]
        have h : ¬ (cx1 % 32 ≤ c % 32) := by omega
        simp [h]
      · rcases Nat.lt_trichotomy (c / 32) (cx2 / 32) with hcw2 | hcw2 | hcw2
        · -- strictly interior word: then cx1 < c < cx2, contradicting hout
          omega
        · -- c sits in the right written word with in-word column right of cx2
          have hcgt : cx2 < c := by omega
          have hidx : (cy1 + k) * pitch + c / 32 =
              (cy1 * pitch + cx2 / 32) + k * pitch := by
            rw [hcw2]; ring
          rw [hidx,
            mark_rows_split_at_right pitch _ _ _ _ _ bm k hlr hrp (by omega),
            Nat.testBit_lor, right_word_testBit]
          have h : ¬ (c % 32 ≤ cx2 % 32) := by omega
          simp [h]
        · -- word strictly right of every written word of the row
          rw [mark_rows_split_outside pitch _ _ _ _ _ bm _ hlr ?side]
          case side =>
            intro k2 hk2
            have el : (cy1 * pitch + cx1 / 32) + k2 * pitch =
                (cy1 + k2) * pitch + cx1 / 32 := by ring
            have er : (cy1 * pitch + cx2 / 32) + k2 * pitch =
                (cy1 + k2) * pitch + cx2 / 32 := by ring
            rcases Nat.lt_trichotomy k k2 with h | h | h
            · left
              rw [el]
              exact row_word_lt pitch (cy1 + k) (c / 32) (cy1 + k2) (cx1 / 32)
                hwc (by omega)
            · right
              rw [er, h]
              omega
            · right
              rw [er]
              exact row_word_lt pitch (cy1 + k2) (cx2 / 32) (cy1 + k) (c / 32)
                hw2 (by omega)
    · -- row outside the written band
      rw [mark_rows_split_outside pitch _ _ _ _ _ bm _ hlr ?side]
      case side =>
        intro k2 hk2
        have el : (cy1 * pitch + cx1 / 32) + k2 * pitch =
            (cy1 + k2) * pitch + cx1 / 32 := by ring
        have er : (cy1 * pitch + cx2 / 32) + k2 * pitch =
            (cy1 + k2) * pitch + cx2 / 32 := by ring
        rcases Nat.lt_trichotomy r (cy1 + k2) with h | h | h
        · left
          rw [el]
          exact row_word_lt pitch r (c / 32) (cy1 + k2) (cx1 / 32) hwc h
        · omega
        · right
          rw [er]
          exact row_word_lt pitch (cy1 + k2) (cx2 / 32) r (c / 32) hw2 h

/-- C truncating division agrees with Nat division on non-negative
operands. -/
theorem int_tdiv_coe (m n : Nat) :
    ((m : Int)).tdiv (n : Int) = ((m / n : Nat) : Int) := rfl

theorem int_tdiv_nonpos_of_lt (z : Int) (n : Nat) (h : z < (n : Int)) :
    z.tdiv (n : Int) ≤ 0 := by
  cases z with
  | ofNat m =>
    have h2 : (m : Int) < (n : Int) := h
    have hm : m < n := by omega
    have e : (Int.ofNat m).tdiv (n : Int) = ((m / n : Nat) : Int) := rfl
    rw [e, Nat.div_eq_of_lt hm]
    exact le_refl 0
  | negSucc m =>
    have e : (Int.negSucc m).tdiv (n : Int) = -(((m + 1) / n : Nat) : Int) := rfl
    rw [e]
    exact neg_nonpos.mpr (Int.natCast_nonneg _)

theorem int_tdiv_toNat_of_nonneg (z : Int) (n : Nat) (hz : 0 ≤ z) :
    z.tdiv (n : Int) = ((z.toNat / n : Nat) : Int) := by
  obtain ⟨m, rfl⟩ := Int.eq_ofNat_of_zero_le hz
  rw [Int.toNat_natCast]
  exact int_tdiv_coe m n

/-- The ceiling-style tile conversion (z + n - 1) tdiv n agrees, after
toNat, with the Nat computation on z.toNat (a non-positive z yields 0 on
both sides). -/
theorem int_tdiv_ceil_toNat (z : Int) (n : Nat) (hn : 0 < n) :
    ((z + (n : Int) - 1).tdiv (n : Int)).toNat = (z.toNat + n - 1) / n := by
  by_cases hz : 0 ≤ z
  · have he : z + (n : Int) - 1 = ((z.toNat + n - 1 : Nat) : Int) := by omega
    rw [he, int_tdiv_coe, Int.toNat_natCast]
  · have hlt : z + (n : Int) - 1 < (n : Int) := by omega
    have h0 := int_tdiv_nonpos_of_lt _ n hlt
    have hz0 : z.toNat = 0 := by omega
    rw [hz0]
    have e2 : (0 + n - 1) / n = 0 := Nat.div_eq_of_lt (by omega)
    rw [e2]
    omega

theorem max_int_zero_nonneg (a : Int) : 0 ≤ max_int 0 a := by
  unfold max_int
  split <;> omega

/-- dirty_mark_rect expressed over Nat tile coordinates: the clamp,
truncating division, and empty test of the prelude coincide with the
corresponding Nat computations when the tile sizes are positive. -/
theorem dirty_mark_rect_eq_tiles (g : BamGeom) (bm : DirtyBitmap)
    (rect : bam_rect_t) (htw : 0 < g.tile_width) (hth : 0 < g.tile_height) :
    dirty_mark_rect g bm rect =
      if ((min_int g.disp_width rect.x2).toNat + g.tile_width.toNat - 1) /
            g.tile_width.toNat ≤
          (max_int 0 rect.x1).toNat / g.tile_width.toNat ∨
         ((min_int g.disp_height rect.y2).toNat + g.tile_height.toNat - 1) /
            g.tile_height.toNat ≤
          (max_int 0 rect.y1).toNat / g.tile_height.toNat then bm
      else
        dirty_mark_tiles g.dirty_buffer_pitch bm
          ((max_int 0 rect.x1).toNat / g.tile_width.toNat)
          ((max_int 0 rect.y1).toNat / g.tile_height.toNat)
          (((min_int g.disp_width rect.x2).toNat + g.tile_width.toNat - 1) /
              g.tile_width.toNat - 1)
          (((min_int g.disp_height rect.y2).toNat + g.tile_height.toNat - 1) /
              g.tile_height.toNat - 1) := by
  have htw2 : g.tile_width = (g.tile_width.toNat : Int) :=
    (Int.toNat_of_nonneg (by omega)).symm
  have hth2 : g.tile_height = (g.tile_height.toNat : Int) :=
    (Int.toNat_of_nonneg (by omega)).symm
  have hx1 : (max_int 0 rect.x1).tdiv g.tile_width =
      (((max_int 0 rect.x1).toNat / g.tile_width.toNat : Nat) : Int) := by
    conv_lhs => rw [htw2]
    exact int_tdiv_toNat_of_nonneg _ _ (max_int_zero_nonneg _)
  have hy1 : (max_int 0 rect.y1).tdiv g.tile_height =
      (((max_int 0 rect.y1).toNat / g.tile_height.toNat : Nat) : Int) := by
    conv_lhs => rw [hth2]
    exact int_tdiv_toNat_of_nonneg _ _ (max_int_zero_nonneg _)
  have hx2 : ((min_int g.disp_width rect.x2 + g.tile_width - 1).tdiv
        g.tile_width).toNat =
      ((min_int g.disp_width rect.x2).toNat + g.tile_width.toNat - 1) /
        g.tile_width.toNat := by
    conv_lhs => rw [htw2]
    exact int_tdiv_ceil_toNat _ _ (by omega)
  have hy2 : ((min_int g.disp_height rect.y2 + g.tile_height - 1).tdiv
        g.tile_height).toNat =
      ((min_int g.disp_height rect.y2).toNat + g.tile_height.toNat - 1) /
        g.tile_height.toNat := by
    conv_lhs => rw [hth2]
    exact int_tdiv_ceil_toNat _ _ (by omega)
  have hx2le := Int.self_le_toNat
    ((min_int g.disp_width rect.x2 + g.tile_width - 1).tdiv g.tile_width)
  have hy2le := Int.self_le_toNat
    ((min_int g.disp_height rect.y2 + g.tile_height - 1).tdiv g.tile_height)
  simp only [dirty_mark_rect, rect_empty]
  by_cases hc :
      ((min_int g.disp_width rect.x2).toNat + g.tile_width.toNat - 1) /
          g.tile_width.toNat ≤
        (max_int 0 rect.x1).toNat / g.tile_width.toNat ∨
      ((min_int g.disp_height rect.y2).toNat + g.tile_height.toNat - 1) /
          g.tile_height.toNat ≤
        (max_int 0 rect.y1).toNat / g.tile_height.toNat
  · have hbool :
        (decide ((min_int g.disp_width rect.x2 + g.tile_width - 1).tdiv
            g.tile_width ≤ (max_int 0 rect.x1).tdiv g.tile_width) ||
         decide ((min_int g.disp_height rect.y2 + g.tile_height - 1).tdiv
            g.tile_height ≤ (max_int 0 rect.y1).tdiv g.tile_height)) = true := by
      simp only [Bool.or_eq_true, decide_eq_true_eq]
      rcases hc with h | h
      · left
        have h1 : (min_int g.disp_width rect.x2 + g.tile_width - 1).tdiv
            g.tile_width ≤
            ((((min_int g.disp_width rect.x2).toNat + g.tile_width.toNat - 1) /
              g.tile_width.toNat : Nat) : Int) := by
          rw [← hx2]
          exact hx2le
        rw [hx1]
        exact le_trans h1 (Nat.cast_le.mpr h)
      · right
        have h1 : (min_int g.disp_height rect.y2 + g.tile_height - 1).tdiv
            g.tile_height ≤
            ((((min_int g.disp_height rect.y2).toNat + g.tile_height.toNat - 1) /
              g.tile_height.toNat : Nat) : Int) := by
          rw [← hy2]
          exact hy2le
        rw [hy1]
        exact le_trans h1 (Nat.cast_le.mpr h)
    rw [if_pos hbool, if_pos hc]
  · rw [not_or] at hc
    have hnot :
        ¬ ((decide ((min_int g.disp_width rect.x2 + g.tile_width - 1).tdiv
            g.tile_width ≤ (max_int 0 rect.x1).tdiv g.tile_width) ||
          decide ((min_int g.disp_height rect.y2 + g.tile_height - 1).tdiv
            g.tile_height ≤ (max_int 0 rect.y1).tdiv g.tile_height)) = true) := by
      simp only [Bool.or_eq_true, decide_eq_true_eq]
      push_neg
      obtain ⟨hcx, hcy⟩ := hc
      have hn2x : 1 ≤ ((min_int g.disp_width rect.x2).toNat +
          g.tile_width.toNat - 1) / g.tile_width.toNat :=
        Nat.pos_of_ne_zero (fun h0 => hcx (le_of_eq_of_le h0 (Nat.zero_le _)))
      have hn2y : 1 ≤ ((min_int g.disp_height rect.y2).toNat +
          g.tile_height.toNat - 1) / g.tile_height.toNat :=
        Nat.pos_of_ne_zero (fun h0 => hcy (le_of_eq_of_le h0 (Nat.zero_le _)))
      have hzx : (min_int g.disp_width rect.x2 + g.tile_width - 1).tdiv
          g.tile_width =
          ((((min_int g.disp_width rect.x2).toNat + g.tile_width.toNat - 1) /
            g.tile_width.toNat : Nat) : Int) := by
        rw [← hx2]
        rw [Int.toNat_of_nonneg]
        by_contra hneg
        push_neg at hneg
        have h0 : ((min_int g.disp_width rect.x2 + g.tile_width - 1).tdiv
            g.tile_width).toNat = 0 := Int.toNat_eq_zero.mpr (by omega)
        exact absurd (hx2.symm.trans h0) (by omega)
      have hzy : (min_int g.disp_height rect.y2 + g.tile_height - 1).tdiv
          g.tile_height =
          ((((min_int g.disp_height rect.y2).toNat + g.tile_height.toNat - 1) /
            g.tile_height.toNat : Nat) : Int) := by
        rw [← hy2]
        rw [Int.toNat_of_nonneg]
        by_contra hneg
        push_neg at hneg
        have h0 : ((min_int g.disp_height rect.y2 + g.tile_height - 1).tdiv
            g.tile_height).toNat = 0 := Int.toNat_eq_zero.mpr (by omega)
        exact absurd (hy2.symm.trans h0) (by omega)
      constructor
      · rw [hx1, hzx]
        exact Nat.cast_lt.mpr (Nat.lt_of_not_le hcx)
      · rw [hy1, hzy]
        exact Nat.cast_lt.mpr (Nat.lt_of_not_le hcy)
    rw [if_neg hnot, if_neg (not_or.mpr hc)]
    have eA : ((max_int 0 rect.x1).tdiv g.tile_width).toNat =
        (max_int 0 rect.x1).toNat / g.tile_width.toNat := by
      rw [hx1, Int.toNat_natCast]
    have eB : ((max_int 0 rect.y1).tdiv g.tile_height).toNat =
        (max_int 0 rect.y1).toNat / g.tile_height.toNat := by
      rw [hy1, Int.toNat_natCast]
    have eC : ((min_int g.disp_width rect.x2 + g.tile_width - 1).tdiv
          g.tile_width - 1).toNat =
        ((min_int g.disp_width rect.x2).toNat + g.tile_width.toNat - 1) /
          g.tile_width.toNat - 1 := by
      rw [Int.pred_toNat, hx2]
    have eD : ((min_int g.disp_height rect.y2 + g.tile_height - 1).tdiv
          g.tile_height - 1).toNat =
        ((min_int g.disp_height rect.y2).toNat + g.tile_height.toNat - 1) /
          g.tile_height.toNat - 1 := by
      rw [Int.pred_toNat, hy2]
    rw [eA, eB, eC, eD]

/-- C3: dirty_mark_rect is monotone on the bitmap bits, sets the bit of
every tile whose rectangle overlaps the marked rectangle clamped to the
display, and never changes the bit of a tile outside the display's tile
grid. -/
theorem dirty_mark_rect_correct (g : BamGeom) (bm : DirtyBitmap)
    (R : bam_rect_t) (htw : 0 < g.tile_width) (hth : 0 < g.tile_height)
    (hp : 0 < g.dirty_buffer_pitch)
    (hcols : tile_cols g ≤ 32 * g.dirty_buffer_pitch)
    (hbm : ∀ i, bm i < 2 ^ 32) :
    (∀ i b, (bm i).testBit b = true →
      ((dirty_mark_rect g bm R) i).testBit b = true) ∧
    (∀ c r : Nat,
      rect_overlaps (tile_rect g c r) (clamp_to_display g R) = true →
      tile_bit (dirty_mark_rect g bm R) g.dirty_buffer_pitch c r = true) ∧
    (∀ c r : Nat, c < 32 * g.dirty_buffer_pitch →
      (tile_cols g ≤ c ∨ tile_rows g ≤ r) →
      tile_bit (dirty_mark_rect g bm R) g.dirty_buffer_pitch c r =
        tile_bit bm g.dirty_buffer_pitch c r) := by
  rw [dirty_mark_rect_eq_tiles g bm R htw hth]
  set twN := g.tile_width.toNat with htwN
  set thN := g.tile_height.toNat with hthN
  set a1 := (max_int 0 R.x1).toNat with ha1
  set b1 := (max_int 0 R.y1).toNat with hb1
  set a2 := (min_int g.disp_width R.x2).toNat with ha2
  set b2 := (min_int g.disp_height R.y2).toNat with hb2
  have htwN0 : 0 < twN := by omega
  have hthN0 : 0 < thN := by omega
  have htw2 : g.tile_width = (twN : Int) := by
    rw [htwN]
    exact (Int.toNat_of_nonneg (by omega)).symm
  have hth2 : g.tile_height = (thN : Int) := by
    rw [hthN]
    exact (Int.toNat_of_nonneg (by omega)).symm
  have hcolsN : tile_cols g = (g.disp_width.toNat + twN - 1) / twN := by
    unfold tile_cols
    rw [htw2]
    exact int_tdiv_ceil_toNat _ _ htwN0
  have hrowsN : tile_rows g = (g.disp_height.toNat + thN - 1) / thN := by
    unfold tile_rows
    rw [hth2]
    exact int_tdiv_ceil_toNat _ _ hthN0
  have ha2W : a2 ≤ g.disp_width.toNat := by
    rw [ha2]
    apply Int.toNat_le_toNat
    unfold min_int
    split <;> omega
  have hb2H : b2 ≤ g.disp_height.toNat := by
    rw [hb2]
    apply Int.toNat_le_toNat
    unfold min_int
    split <;> omega
  have hceilX : (a2 + twN - 1) / twN ≤ tile_cols g := by
    rw [hcolsN]
    exact Nat.div_le_div_right (by omega)
  have hceilY : (b2 + thN - 1) / thN ≤ tile_rows g := by
    rw [hrowsN]
    exact Nat.div_le_div_right (by omega)
  refine ⟨?_, ?_, ?_⟩
  · -- monotonicity
    intro i b hbit
    split
    · exact hbit
    · have hb32 : b < 32 := by
        by_contra hb
        push_neg at hb
        have hsmall : bm i < 2 ^ b :=
          lt_of_lt_of_le (hbm i) (Nat.pow_le_pow_right (by omega) hb)
        rw [Nat.testBit_lt_two_pow hsmall] at hbit
        exact Bool.false_ne_true hbit
      exact dirty_mark_tiles_mono _ _ _ _ _ _ i b hb32 hbit
  · -- completeness
    intro c r hov
    simp only [rect_overlaps, tile_rect, clamp_to_display, Bool.and_eq_true,
      decide_eq_true_eq] at hov
    obtain ⟨⟨⟨h1, h2⟩, h3⟩, h4⟩ := hov
    rw [htw2] at h1 h2
    rw [hth2] at h3 h4
    have h1' : c * twN < a2 := by
      rw [ha2, Int.lt_toNat]
      push_cast
      exact h1
    have h2' : a1 < (c + 1) * twN := by
      have hX1 : max_int 0 R.x1 = ((a1 : Nat) : Int) := by
        rw [ha1]
        exact (Int.toNat_of_nonneg (max_int_zero_nonneg _)).symm
      rw [hX1] at h2
      exact_mod_cast h2
    have h3' : r * thN < b2 := by
      rw [hb2, Int.lt_toNat]
      push_cast
      exact h3
    have h4' : b1 < (r + 1) * thN := by
      have hY1 : max_int 0 R.y1 = ((b1 : Nat) : Int) := by
        rw [hb1]
        exact (Int.toNat_of_nonneg (max_int_zero_nonneg _)).symm
      rw [hY1] at h4
      exact_mod_cast h4
    have hcx1 : a1 / twN ≤ c := by
      by_contra hcon
      push_neg at hcon
      have := (Nat.le_div_iff_mul_le htwN0).mp (by omega : c + 1 ≤ a1 / twN)
      omega
    have hcx2 : c + 1 ≤ (a2 + twN - 1) / twN := by
      rw [Nat.le_div_iff_mul_le htwN0]
      have e : (c + 1) * twN = c * twN + twN := by ring
      omega
    have hcy1 : b1 / thN ≤ r := by
      by_contra hcon
      push_neg at hcon
      have := (Nat.le_div_iff_mul_le hthN0).mp (by omega : r + 1 ≤ b1 / thN)
      omega
    have hcy2 : r + 1 ≤ (b2 + thN - 1) / thN := by
      rw [Nat.le_div_iff_mul_le hthN0]
      have e : (r + 1) * thN = r * thN + thN := by ring
      omega
    rw [if_neg (by omega)]
    exact dirty_mark_tiles_inside _ bm _ _ _ _ c r hp (by omega) (by omega)
      (by omega) (by omega) (by omega)
  · -- tiles outside the display grid are untouched
    intro c r hc32 hout
    by_cases hcond : (a2 + twN - 1) / twN ≤ a1 / twN ∨
        (b2 + thN - 1) / thN ≤ b1 / thN
    · rw [if_pos hcond]
    · rw [if_neg hcond]
      rw [not_or] at hcond
      obtain ⟨hcx, hcy⟩ := hcond
      apply dirty_mark_tiles_outside _ bm _ _ _ _ c r hp (by omega) (by omega)
        hc32
      intro hin
      obtain ⟨hi1, hi2, hi3, hi4⟩ := hin
      rcases hout with h | h
      · have hpos : 1 ≤ (a2 + twN - 1) / twN :=
          Nat.pos_of_ne_zero (fun h0 => hcx (le_of_eq_of_le h0 (Nat.zero_le _)))
        have hlt1 : c < (a2 + twN - 1) / twN := by omega
        have hlt2 : c < tile_cols g := lt_of_lt_of_le hlt1 hceilX
        omega
      · have hpos : 1 ≤ (b2 + thN - 1) / thN :=
          Nat.pos_of_ne_zero (fun h0 => hcy (le_of_eq_of_le h0 (Nat.zero_le _)))
        have hlt1 : r < (b2 + thN - 1) / thN := by omega
        have hlt2 : r < tile_rows g := lt_of_lt_of_le hlt1 hceilY
        omega

/-- C3 witness: marking rectangle (0,0)-(40,40) on a 1024x32 display
with 32x32 tiles sets the bit of tile (1,0), which overlaps the clamped
rectangle. -/
theorem dirty_mark_rect_correct_witness :
    tile_bit (dirty_mark_rect ⟨1024, 32, 32, 32, 1⟩ (fun _ => 0)
      ⟨0, 0, 40, 40⟩) 1 1 0 = true :=
  (dirty_mark_rect_correct ⟨1024, 32, 32, 32, 1⟩ (fun _ => 0) ⟨0, 0, 40, 40⟩
    (by decide) (by decide) (by decide) (by decide)
    (fun i => Nat.pos_pow_of_pos 32 (by decide))).2.1 1 0 (by decide)

/-- For a word below 2^32, the highest set bit sits at log2. -/
theorem testBit_log2_self (w : Nat) (h0 : w ≠ 0) : w.testBit w.log2 = true := by
  have h1 := Nat.log2_self_le h0
  have h2 := Nat.lt_log2_self (n := w)
  rw [Nat.testBit_to_div_mod]
  have hdiv : w / 2 ^ w.log2 = 1 := by
    apply Nat.div_eq_of_lt_le
    · simpa using h1
    · have e : (1 + 1) * 2 ^ w.log2 = 2 ^ (w.log2 + 1) := by ring
      rw [e]
      exact h2
  simp [hdiv]

/-- Each clz value of a 32-bit word occurs in wordBlts exactly once if
the corresponding bit (31 - clz) is set, never otherwise. -/
theorem wordBlts_count : ∀ (w : Nat), w < 2 ^ 32 → ∀ (c : Nat),
    (wordBlts w).count c =
      if c ≤ 31 ∧ w.testBit (31 - c) = true then 1 else 0 := by
  intro w
  induction w using Nat.strong_induction_on with
  | _ w ih =>
    intro hw c
    by_cases h0 : w = 0
    · subst h0
      rw [wordBlts]
      simp
    · have hl : w.log2 ≤ 31 := by
        have h1 := Nat.log2_self_le h0
        by_contra hcon
        push_neg at hcon
        have h2 : 2 ^ 32 ≤ 2 ^ w.log2 := Nat.pow_le_pow_right (by omega) (by omega)
        omega
      have hbit := testBit_log2_self w h0
      have hlt : w % 2 ^ w.log2 < w :=
        Nat.lt_of_lt_of_le
          (Nat.mod_lt _ (Nat.pos_pow_of_pos _ (by omega)))
          (Nat.log2_self_le h0)
      have hw2 : w % 2 ^ w.log2 < 2 ^ 32 := lt_of_le_of_lt (Nat.mod_le _ _) hw
      rw [wordBlts, dif_neg h0, List.count_cons, ih _ hlt hw2 c]
      by_cases hc : c = 31 - w.log2
      · subst hc
        have he : 31 - (31 - w.log2) = w.log2 := by omega
        have hrest : (w % 2 ^ w.log2).testBit w.log2 = false := by
          rw [Nat.testBit_mod_two_pow]
          simp
        rw [he]
        simp [hrest, hbit, hl]
      · have hhead : ¬ ((31 - w.log2 : Nat) = c) := fun he => hc he.symm
        by_cases hcle : c ≤ 31
        · have hne : 31 - c ≠ w.log2 := by omega
          by_cases hlt2 : 31 - c < w.log2
          · have heq : (w % 2 ^ w.log2).testBit (31 - c) = w.testBit (31 - c) := by
              rw [Nat.testBit_mod_two_pow]
              simp [hlt2]
            simp [heq, hhead]
          · have hbw : w.testBit (31 - c) = false := by
              apply Nat.testBit_lt_two_pow
              calc w < 2 ^ (w.log2 + 1) := Nat.lt_log2_self
                _ ≤ 2 ^ (31 - c) := Nat.pow_le_pow_right (by omega) (by omega)
            have hbm : (w % 2 ^ w.log2).testBit (31 - c) = false := by
              rw [Nat.testBit_mod_two_pow]
              simp [hbw]
            simp [hbw, hbm, hhead]
        · have hbig : ¬ (c ≤ 31 ∧ (w % 2 ^ w.log2).testBit (31 - c) = true) := by
            omega
          simp [hcle, hhead]
  -- end of strong induction

/-- Every clz value produced for a 32-bit word is at most 31. -/
theorem wordBlts_le (w : Nat) (hw : w < 2 ^ 32) :
    ∀ c ∈ wordBlts w, c ≤ 31 := by
  intro c hc
  have hcount : 0 < (wordBlts w).count c := List.count_pos_iff.mpr hc
  rw [wordBlts_count w hw c] at hcount
  by_contra hcon
  simp [hcon] at hcount

/-- A clz value is in wordBlts exactly when its bit is set. -/
theorem wordBlts_mem (w : Nat) (hw : w < 2 ^ 32) (c : Nat) :
    c ∈ wordBlts w ↔ c ≤ 31 ∧ w.testBit (31 - c) = true := by
  rw [← List.count_pos_iff, wordBlts_count w hw c]
  split
  next h => simpa using h
  next h => simpa using h


/-- Counting a blt position in the positions mapped from clz values:
the map clz to (word_x + clz * tile_width, offset_y) is injective, so
the count equals the count of the clz value itself. -/
theorem blts_count_map (wx oy tw : Int) (htw : tw ≠ 0) :
    ∀ (l : List Nat) (a : Nat),
      (l.map (fun (clz : Nat) => (wx + (clz : Int) * tw, oy))).count
          (wx + (a : Int) * tw, oy) = l.count a := by
  intro l
  induction l with
  | nil => intro a; rfl
  | cons x xs ih =>
    intro a
    simp only [List.map_cons, List.count_cons, ih]
    by_cases hax : a = x
    · subst hax
      simp
    · have h1 : ¬ ((wx + (a : Int) * tw, oy) = (wx + (x : Int) * tw, oy)) := by
        intro hcc
        simp only [Prod.mk.injEq] at hcc
        have h2 : (a : Int) * tw = (x : Int) * tw := by
          have := hcc.1
          omega
        have h3 : (a : Int) = (x : Int) := mul_right_cancel₀ htw h2
        exact hax (by exact_mod_cast h3)
      simp [hax, h1]
      have h4 : ¬ (x = a ∨ tw = 0) := by
        rintro (hcc | hcc)
        · exact hax hcc.symm
        · exact htw hcc
      rw [if_neg h4, if_neg (fun hcc => hax hcc.symm)]

/-- Count of a tile-origin blt position among the blts emitted for one
word: one when the word is the tile's word and the tile's bit is set,
zero otherwise. -/
theorem wordBlts_map_count (g : BamGeom) (htw : 0 < g.tile_width)
    (hth : 0 < g.tile_height) (w : Nat) (hw : w < 2 ^ 32)
    (k p col row : Nat) (hp : 0 < p) :
    ((wordBlts w).map (fun (clz : Nat) =>
        (((k % p * 32 : Nat) : Int) * g.tile_width + (clz : Int) * g.tile_width,
         ((k / p : Nat) : Int) * g.tile_height))).count
      ((col : Int) * g.tile_width, (row : Int) * g.tile_height) =
    if col < 32 * p ∧ row * p + col / 32 = k ∧
       w.testBit (31 - col % 32) = true then 1 else 0 := by
  have hkp : k % p < p := Nat.mod_lt _ hp
  by_cases hhit : k / p = row ∧ k % p * 32 ≤ col ∧ col < k % p * 32 + 32
  · obtain ⟨hrow, hlo, hhi⟩ := hhit
    have hcd : col / 32 = k % p := by omega
    have hcm : col % 32 = col - k % p * 32 := by omega
    have ht : row * p + col / 32 = k := by
      have hdm := Nat.div_add_mod k p
      have e1 : row * p = p * (k / p) := by rw [← hrow]; ring
      omega
    have hcol32 : col < 32 * p := by omega
    have htarget :
        ((col : Int) * g.tile_width, (row : Int) * g.tile_height) =
        (((k % p * 32 : Nat) : Int) * g.tile_width +
            ((col - k % p * 32 : Nat) : Int) * g.tile_width,
         ((k / p : Nat) : Int) * g.tile_height) := by
      refine Prod.ext ?_ ?_
      · show (col : Int) * g.tile_width = _
        rw [Nat.cast_sub hlo]
        push_cast
        ring
      · show (row : Int) * g.tile_height = _
        rw [hrow]
    rw [htarget,
      blts_count_map _ _ _ (by omega) (wordBlts w) (col - k % p * 32),
      wordBlts_count w hw (col - k % p * 32)]
    have hcm2 : 31 - (col - k % p * 32) = 31 - col % 32 := by omega
    by_cases hbit : w.testBit (31 - col % 32) = true
    · rw [if_pos ⟨by omega, by rw [hcm2]; exact hbit⟩,
        if_pos ⟨hcol32, ht, hbit⟩]
    · rw [if_neg (fun hcc => hbit (by rw [← hcm2]; exact hcc.2)),
        if_neg (fun hcc => hbit hcc.2.2)]
  · rw [List.count_eq_zero.mpr ?_, if_neg ?_]
    · intro hcc
      obtain ⟨hcl, ht, hb⟩ := hcc
      have hcp : col / 32 < p := by omega
      have hdm := Nat.div_add_mod k p
      have heq : row * p + col / 32 = (k / p) * p + k % p := by
        have e : (k / p) * p = p * (k / p) := by ring
        omega
      have huniq := row_word_inj p row (col / 32) (k / p) (k % p) hcp hkp heq
      exact hhit ⟨huniq.1.symm, by omega, by omega⟩
    · intro hmem
      obtain ⟨clz, hclzmem, heq⟩ := List.mem_map.mp hmem
      have hle := wordBlts_le w hw clz hclzmem
      simp only [Prod.mk.injEq] at heq
      obtain ⟨h1, h2⟩ := heq
      have hrow : (((k / p : Nat)) : Int) = (row : Int) :=
        mul_right_cancel₀ (by omega) h2
      have hrow2 : k / p = row := by exact_mod_cast hrow
      have hcol : (((k % p * 32 + clz : Nat)) : Int) = (col : Int) := by
        apply mul_right_cancel₀ (b := g.tile_width) (by omega)
        push_cast
        push_cast at h1
        linear_combination h1
      have hcol2 : k % p * 32 + clz = col := by exact_mod_cast hcol
      exact hhit ⟨hrow2, by omega, by omega⟩

/-- The blt calls of the dirty_clean word loop, counted at a tile
origin: starting at global word index k, the count is one exactly when
the tile's word lies in the remaining words and its bit is set. -/
theorem dirty_clean_go_count (g : BamGeom) (htw : 0 < g.tile_width)
    (hth : 0 < g.tile_height) (hp : 0 < g.dirty_buffer_pitch) :
    ∀ (words : List Nat) (k : Nat) (word_x offset_y : Int) (row_rem : Nat),
      word_x = ((k % g.dirty_buffer_pitch * 32 : Nat) : Int) * g.tile_width →
      offset_y = ((k / g.dirty_buffer_pitch : Nat) : Int) * g.tile_height →
      row_rem = g.dirty_buffer_pitch - k % g.dirty_buffer_pitch →
      (∀ w ∈ words, w < 2 ^ 32) →
      ∀ col row : Nat,
        ((dirty_clean_go g words word_x offset_y row_rem).1.count
            ((col : Int) * g.tile_width, (row : Int) * g.tile_height)) =
          if col < 32 * g.dirty_buffer_pitch ∧
             k ≤ row * g.dirty_buffer_pitch + col / 32 ∧
             row * g.dirty_buffer_pitch + col / 32 - k < words.length ∧
             (words.getD (row * g.dirty_buffer_pitch + col / 32 - k) 0).testBit
               (31 - col % 32) = true
          then 1 else 0 := by
  intro words
  induction words with
  | nil =>
    intro k wx oy rr hwx hoy hrr hbnd col row
    simp only [dirty_clean_go, List.count_nil]
    rw [if_neg]
    intro hcc
    have h3 := hcc.2.2.1
    simp only [List.length_nil] at h3
    omega
  | cons w rest ih =>
    intro k wx oy rr hwx hoy hrr hbnd col row
    subst hwx
    subst hoy
    subst hrr
    have hw32 : w < 2 ^ 32 := hbnd w (by simp)
    have hbnd2 : ∀ x ∈ rest, x < 2 ^ 32 := fun x hx => hbnd x (by simp [hx])
    have hkp : k % g.dirty_buffer_pitch < g.dirty_buffer_pitch := Nat.mod_lt _ hp
    have hdm := Nat.div_add_mod k g.dirty_buffer_pitch
    simp only [dirty_clean_go, List.count_append]
    rw [wordBlts_map_count g htw hth w hw32 k g.dirty_buffer_pitch col row hp]
    have hrest :
        ((if g.dirty_buffer_pitch - k % g.dirty_buffer_pitch ≤ 1 then
            dirty_clean_go g rest 0
              (((k / g.dirty_buffer_pitch : Nat) : Int) * g.tile_height +
                g.tile_height)
              g.dirty_buffer_pitch
          else
            dirty_clean_go g rest
              (((k % g.dirty_buffer_pitch * 32 : Nat) : Int) * g.tile_width +
                32 * g.tile_width)
              (((k / g.dirty_buffer_pitch : Nat) : Int) * g.tile_height)
              (g.dirty_buffer_pitch - k % g.dirty_buffer_pitch - 1)).1.count
          ((col : Int) * g.tile_width, (row : Int) * g.tile_height)) =
        if col < 32 * g.dirty_buffer_pitch ∧
           k + 1 ≤ row * g.dirty_buffer_pitch + col / 32 ∧
           row * g.dirty_buffer_pitch + col / 32 - (k + 1) < rest.length ∧
           (rest.getD (row * g.dirty_buffer_pitch + col / 32 - (k + 1)) 0).testBit
             (31 - col % 32) = true
        then 1 else 0 := by
      by_cases hb : g.dirty_buffer_pitch - k % g.dirty_buffer_pitch ≤ 1
      · have hmod : k % g.dirty_buffer_pitch = g.dirty_buffer_pitch - 1 := by omega
        have e0 : k + 1 = g.dirty_buffer_pitch * (k / g.dirty_buffer_pitch) +
            g.dirty_buffer_pitch := by omega
        have e1 : k + 1 = g.dirty_buffer_pitch * (k / g.dirty_buffer_pitch + 1) := by
          rw [Nat.mul_succ]
          exact e0
        have hmod1 : (k + 1) % g.dirty_buffer_pitch = 0 := by
          rw [e1]
          exact Nat.mul_mod_right _ _
        have hdiv1 : (k + 1) / g.dirty_buffer_pitch = k / g.dirty_buffer_pitch + 1 := by
          rw [e1]
          exact Nat.mul_div_cancel_left _ hp
        rw [if_pos hb]
        rw [ih (k + 1) 0
          (((k / g.dirty_buffer_pitch : Nat) : Int) * g.tile_height + g.tile_height)
          g.dirty_buffer_pitch
          (by rw [hmod1]; simp)
          (by rw [hdiv1]; push_cast; ring)
          (by rw [hmod1]; omega) hbnd2 col row]
      · have hmod1 : (k + 1) % g.dirty_buffer_pitch = k % g.dirty_buffer_pitch + 1 := by
          have e0 : k + 1 = g.dirty_buffer_pitch * (k / g.dirty_buffer_pitch) +
              (k % g.dirty_buffer_pitch + 1) := by omega
          rw [e0, Nat.mul_add_mod]
          exact Nat.mod_eq_of_lt (by omega)
        have hdiv1 : (k + 1) / g.dirty_buffer_pitch = k / g.dirty_buffer_pitch := by
          have e0 : k + 1 = g.dirty_buffer_pitch * (k / g.dirty_buffer_pitch) +
              (k % g.dirty_buffer_pitch + 1) := by omega
          rw [e0, Nat.mul_add_div hp]
          have e2 : (k % g.dirty_buffer_pitch + 1) / g.dirty_buffer_pitch = 0 :=
            Nat.div_eq_of_lt (by omega)
          omega
        rw [if_neg hb]
        rw [ih (k + 1)
          (((k % g.dirty_buffer_pitch * 32 : Nat) : Int) * g.tile_width +
            32 * g.tile_width)
          (((k / g.dirty_buffer_pitch : Nat) : Int) * g.tile_height)
          (g.dirty_buffer_pitch - k % g.dirty_buffer_pitch - 1)
          (by rw [hmod1]; push_cast; ring)
          (by rw [hdiv1])
          (by rw [hmod1]; omega) hbnd2 col row]
    rw [hrest]
    by_cases hcol : col < 32 * g.dirty_buffer_pitch
    · by_cases ht : row * g.dirty_buffer_pitch + col / 32 = k
      · -- the tile belongs to the current word
        rw [if_neg (show ¬ (col < 32 * g.dirty_buffer_pitch ∧
            k + 1 ≤ row * g.dirty_buffer_pitch + col / 32 ∧
            row * g.dirty_buffer_pitch + col / 32 - (k + 1) < rest.length ∧
            (rest.getD (row * g.dirty_buffer_pitch + col / 32 - (k + 1)) 0).testBit
              (31 - col % 32) = true) from
          fun hcc => absurd hcc.2.1 (by omega))]
        have hidx0 : row * g.dirty_buffer_pitch + col / 32 - k = 0 := by omega
        by_cases hbit : w.testBit (31 - col % 32) = true
        · rw [if_pos (show col < 32 * g.dirty_buffer_pitch ∧
              row * g.dirty_buffer_pitch + col / 32 = k ∧
              w.testBit (31 - col % 32) = true from ⟨hcol, ht, hbit⟩)]
          rw [if_pos (show col < 32 * g.dirty_buffer_pitch ∧
              k ≤ row * g.dirty_buffer_pitch + col / 32 ∧
              row * g.dirty_buffer_pitch + col / 32 - k < (w :: rest).length ∧
              ((w :: rest).getD (row * g.dirty_buffer_pitch + col / 32 - k)
                0).testBit (31 - col % 32) = true from
            ⟨hcol, by omega, by simp only [List.length_cons]; omega,
             by rw [hidx0, List.getD_cons_zero]; exact hbit⟩)]
        · rw [if_neg (show ¬ (col < 32 * g.dirty_buffer_pitch ∧
              row * g.dirty_buffer_pitch + col / 32 = k ∧
              w.testBit (31 - col % 32) = true) from fun hcc => hbit hcc.2.2)]
          rw [if_neg (show ¬ (col < 32 * g.dirty_buffer_pitch ∧
              k ≤ row * g.dirty_buffer_pitch + col / 32 ∧
              row * g.dirty_buffer_pitch + col / 32 - k < (w :: rest).length ∧
              ((w :: rest).getD (row * g.dirty_buffer_pitch + col / 32 - k)
                0).testBit (31 - col % 32) = true) from fun hcc => hbit (by
            have h4 := hcc.2.2.2
            rw [hidx0, List.getD_cons_zero] at h4
            exact h4))]
      · rw [if_neg (show ¬ (col < 32 * g.dirty_buffer_pitch ∧
            row * g.dirty_buffer_pitch + col / 32 = k ∧
            w.testBit (31 - col % 32) = true) from fun hcc => ht hcc.2.1),
          zero_add]
        by_cases hge : k + 1 ≤ row * g.dirty_buffer_pitch + col / 32
        · have e : row * g.dirty_buffer_pitch + col / 32 - k =
              (row * g.dirty_buffer_pitch + col / 32 - (k + 1)) + 1 := by omega
          by_cases hcc2 : row * g.dirty_buffer_pitch + col / 32 - (k + 1) <
              rest.length ∧
              (rest.getD (row * g.dirty_buffer_pitch + col / 32 - (k + 1))
                0).testBit (31 - col % 32) = true
          · rw [if_pos (show col < 32 * g.dirty_buffer_pitch ∧
                k + 1 ≤ row * g.dirty_buffer_pitch + col / 32 ∧
                row * g.dirty_buffer_pitch + col / 32 - (k + 1) < rest.length ∧
                (rest.getD (row * g.dirty_buffer_pitch + col / 32 - (k + 1))
                  0).testBit (31 - col % 32) = true from
              ⟨hcol, hge, hcc2.1, hcc2.2⟩)]
            rw [if_pos (show col < 32 * g.dirty_buffer_pitch ∧
                k ≤ row * g.dirty_buffer_pitch + col / 32 ∧
                row * g.dirty_buffer_pitch + col / 32 - k < (w :: rest).length ∧
                ((w :: rest).getD (row * g.dirty_buffer_pitch + col / 32 - k)
                  0).testBit (31 - col % 32) = true from
              ⟨hcol, by omega, by simp only [List.length_cons]; omega,
               by rw [e, List.getD_cons_succ]; exact hcc2.2⟩)]
          · rw [if_neg (show ¬ (col < 32 * g.dirty_buffer_pitch ∧
                k + 1 ≤ row * g.dirty_buffer_pitch + col / 32 ∧
                row * g.dirty_buffer_pitch + col / 32 - (k + 1) < rest.length ∧
                (rest.getD (row * g.dirty_buffer_pitch + col / 32 - (k + 1))
                  0).testBit (31 - col % 32) = true) from
              fun hcc => hcc2 ⟨hcc.2.2.1, hcc.2.2.2⟩)]
            rw [if_neg (show ¬ (col < 32 * g.dirty_buffer_pitch ∧
                k ≤ row * g.dirty_buffer_pitch + col / 32 ∧
                row * g.dirty_buffer_pitch + col / 32 - k < (w :: rest).length ∧
                ((w :: rest).getD (row * g.dirty_buffer_pitch + col / 32 - k)
                  0).testBit (31 - col % 32) = true) from fun hcc => hcc2 (by
              have h3 := hcc.2.2.1
              simp only [List.length_cons] at h3
              have h4 := hcc.2.2.2
              rw [e, List.getD_cons_succ] at h4
              exact ⟨by omega, h4⟩))]
        · rw [if_neg (show ¬ (col < 32 * g.dirty_buffer_pitch ∧
              k + 1 ≤ row * g.dirty_buffer_pitch + col / 32 ∧
              row * g.dirty_buffer_pitch + col / 32 - (k + 1) < rest.length ∧
              (rest.getD (row * g.dirty_buffer_pitch + col / 32 - (k + 1))
                0).testBit (31 - col % 32) = true) from
            fun hcc => hge hcc.2.1)]
          rw [if_neg (show ¬ (col < 32 * g.dirty_buffer_pitch ∧
              k ≤ row * g.dirty_buffer_pitch + col / 32 ∧
              row * g.dirty_buffer_pitch + col / 32 - k < (w :: rest).length ∧
              ((w :: rest).getD (row * g.dirty_buffer_pitch + col / 32 - k)
                0).testBit (31 - col % 32) = true) from
            fun hcc => absurd hcc.2.1 (by omega))]
    · rw [if_neg (show ¬ (col < 32 * g.dirty_buffer_pitch ∧
          row * g.dirty_buffer_pitch + col / 32 = k ∧
          w.testBit (31 - col % 32) = true) from fun hcc => hcol hcc.1),
        if_neg (show ¬ (col < 32 * g.dirty_buffer_pitch ∧
          k + 1 ≤ row * g.dirty_buffer_pitch + col / 32 ∧
          row * g.dirty_buffer_pitch + col / 32 - (k + 1) < rest.length ∧
          (rest.getD (row * g.dirty_buffer_pitch + col / 32 - (k + 1))
            0).testBit (31 - col % 32) = true) from fun hcc => hcol hcc.1),
        if_neg (show ¬ (col < 32 * g.dirty_buffer_pitch ∧
          k ≤ row * g.dirty_buffer_pitch + col / 32 ∧
          row * g.dirty_buffer_pitch + col / 32 - k < (w :: rest).length ∧
          ((w :: rest).getD (row * g.dirty_buffer_pitch + col / 32 - k)
            0).testBit (31 - col % 32) = true) from fun hcc => hcol hcc.1)]

/-- The word loop writes zero over every word of the dirty bitmap,
whatever position state it starts in. -/
theorem dirty_clean_go_bitmap (g : BamGeom) :
    ∀ (words : List Nat) (word_x offset_y : Int) (row_rem : Nat),
      (dirty_clean_go g words word_x offset_y row_rem).2 =
        List.replicate words.length 0 := by
  intro words
  induction words with
  | nil =>
    intro wx oy rr
    simp [dirty_clean_go]
  | cons w rest ih =>
    intro wx oy rr
    by_cases hb : rr ≤ 1
    · simp only [dirty_clean_go, if_pos hb, List.length_cons,
        List.replicate_succ, ih]
    · simp only [dirty_clean_go, if_neg hb, List.length_cons,
        List.replicate_succ, ih]

/-- Every blt call emitted by the dirty_clean word loop started at
global word index k lies at the display origin of a tile whose bit is
set in the remaining words. -/
theorem dirty_clean_go_mem (g : BamGeom) (hp : 0 < g.dirty_buffer_pitch) :
    ∀ (words : List Nat) (k : Nat) (word_x offset_y : Int) (row_rem : Nat),
      word_x = ((k % g.dirty_buffer_pitch * 32 : Nat) : Int) * g.tile_width →
      offset_y = ((k / g.dirty_buffer_pitch : Nat) : Int) * g.tile_height →
      row_rem = g.dirty_buffer_pitch - k % g.dirty_buffer_pitch →
      (∀ w ∈ words, w < 2 ^ 32) →
      ∀ q ∈ (dirty_clean_go g words word_x offset_y row_rem).1,
        ∃ col row : Nat,
          q = ((col : Int) * g.tile_width, (row : Int) * g.tile_height) ∧
          col < 32 * g.dirty_buffer_pitch ∧
          k ≤ row * g.dirty_buffer_pitch + col / 32 ∧
          row * g.dirty_buffer_pitch + col / 32 - k < words.length ∧
          (words.getD (row * g.dirty_buffer_pitch + col / 32 - k) 0).testBit
            (31 - col % 32) = true := by
  intro words
  induction words with
  | nil =>
    intro k wx oy rr hwx hoy hrr hbnd q hq
    simp [dirty_clean_go] at hq
  | cons w rest ih =>
    intro k wx oy rr hwx hoy hrr hbnd q hq
    subst hwx
    subst hoy
    subst hrr
    have hw32 : w < 2 ^ 32 := hbnd w (by simp)
    have hbnd2 : ∀ x ∈ rest, x < 2 ^ 32 := fun x hx => hbnd x (by simp [hx])
    have hkp : k % g.dirty_buffer_pitch < g.dirty_buffer_pitch := Nat.mod_lt _ hp
    have hdm := Nat.div_add_mod k g.dirty_buffer_pitch
    simp only [dirty_clean_go, List.mem_append, List.mem_map] at hq
    rcases hq with ⟨clz, hclz, hq⟩ | hq
    · obtain ⟨hle31, hbit⟩ := (wordBlts_mem w hw32 clz).mp hclz
      have hcd : (k % g.dirty_buffer_pitch * 32 + clz) / 32 =
          k % g.dirty_buffer_pitch := by omega
      have ht : k / g.dirty_buffer_pitch * g.dirty_buffer_pitch +
          (k % g.dirty_buffer_pitch * 32 + clz) / 32 = k := by
        rw [hcd, Nat.mul_comm]
        exact hdm
      have hcm : (k % g.dirty_buffer_pitch * 32 + clz) % 32 = clz := by omega
      refine ⟨k % g.dirty_buffer_pitch * 32 + clz, k / g.dirty_buffer_pitch,
        ?_, by omega, le_of_eq ht.symm, ?_, ?_⟩
      · rw [← hq]
        simp only [Prod.mk.injEq]
        refine ⟨by push_cast; ring, trivial⟩
      · rw [ht]
        simp
      · rw [ht, Nat.sub_self, List.getD_cons_zero, hcm]
        exact hbit
    · by_cases hb : g.dirty_buffer_pitch - k % g.dirty_buffer_pitch ≤ 1
      · rw [if_pos hb] at hq
        have e1 : k + 1 = g.dirty_buffer_pitch * (k / g.dirty_buffer_pitch + 1) := by
          rw [Nat.mul_succ]
          omega
        have hmod1 : (k + 1) % g.dirty_buffer_pitch = 0 := by
          rw [e1]
          exact Nat.mul_mod_right _ _
        have hdiv1 : (k + 1) / g.dirty_buffer_pitch = k / g.dirty_buffer_pitch + 1 := by
          rw [e1]
          exact Nat.mul_div_cancel_left _ hp
        obtain ⟨col, row, h1, h2, h3, h4, h5⟩ := ih (k + 1) 0
          (((k / g.dirty_buffer_pitch : Nat) : Int) * g.tile_height + g.tile_height)
          g.dirty_buffer_pitch
          (by rw [hmod1]; simp)
          (by rw [hdiv1]; push_cast; ring)
          (by rw [hmod1]; omega) hbnd2 q hq
        refine ⟨col, row, h1, h2, by omega, ?_, ?_⟩
        · simp only [List.length_cons]
          omega
        · have e : row * g.dirty_buffer_pitch + col / 32 - k =
              (row * g.dirty_buffer_pitch + col / 32 - (k + 1)) + 1 := by omega
          rw [e, List.getD_cons_succ]
          exact h5
      · rw [if_neg hb] at hq
        have hmod1 : (k + 1) % g.dirty_buffer_pitch = k % g.dirty_buffer_pitch + 1 := by
          have e0 : k + 1 = g.dirty_buffer_pitch * (k / g.dirty_buffer_pitch) +
              (k % g.dirty_buffer_pitch + 1) := by omega
          rw [e0, Nat.mul_add_mod]
          exact Nat.mod_eq_of_lt (by omega)
        have hdiv1 : (k + 1) / g.dirty_buffer_pitch = k / g.dirty_buffer_pitch := by
          have e0 : k + 1 = g.dirty_buffer_pitch * (k / g.dirty_buffer_pitch) +
              (k % g.dirty_buffer_pitch + 1) := by omega
          rw [e0, Nat.mul_add_div hp]
          have e2 : (k % g.dirty_buffer_pitch + 1) / g.dirty_buffer_pitch = 0 :=
            Nat.div_eq_of_lt (by omega)
          omega
        obtain ⟨col, row, h1, h2, h3, h4, h5⟩ := ih (k + 1)
          (((k % g.dirty_buffer_pitch * 32 : Nat) : Int) * g.tile_width +
            32 * g.tile_width)
          (((k / g.dirty_buffer_pitch : Nat) : Int) * g.tile_height)
          (g.dirty_buffer_pitch - k % g.dirty_buffer_pitch - 1)
          (by rw [hmod1]; push_cast; ring)
          (by rw [hdiv1])
          (by rw [hmod1]; omega) hbnd2 q hq
        refine ⟨col, row, h1, h2, by omega, ?_, ?_⟩
        · simp only [List.length_cons]
          omega
        · have e : row * g.dirty_buffer_pitch + col / 32 - k =
              (row * g.dirty_buffer_pitch + col / 32 - (k + 1)) + 1 := by omega
          rw [e, List.getD_cons_succ]
          exact h5

/-- C2: Clean convergence — starting from any dirty bitmap (well-formed
32-bit words) with no mutation during the pass, dirty_clean issues
exactly one host blt_tile call per tile whose bit was set when the pass
began, each at that tile's display origin (col * tile_width,
row * tile_height), issues no other calls, and on return every word of
the dirty bitmap is zero. -/
theorem dirty_clean_correct (g : BamGeom) (words : List Nat)
    (htw : 0 < g.tile_width) (hth : 0 < g.tile_height)
    (hp : 0 < g.dirty_buffer_pitch)
    (hw : ∀ w ∈ words, w < 2 ^ 32) :
    (dirty_clean g words).2 = List.replicate words.length 0 ∧
    (∀ q ∈ (dirty_clean g words).1, ∃ col row : Nat,
        q = ((col : Int) * g.tile_width, (row : Int) * g.tile_height) ∧
        dirty_tile_in_words words g.dirty_buffer_pitch col row) ∧
    (∀ col row : Nat,
        (dirty_clean g words).1.count
            ((col : Int) * g.tile_width, (row : Int) * g.tile_height) =
          if dirty_tile_in_words words g.dirty_buffer_pitch col row
          then 1 else 0) := by
  have e1 : (0 : Int) =
      ((0 % g.dirty_buffer_pitch * 32 : Nat) : Int) * g.tile_width := by
    simp
  have e2 : (0 : Int) =
      ((0 / g.dirty_buffer_pitch : Nat) : Int) * g.tile_height := by
    simp
  have e3 : g.dirty_buffer_pitch =
      g.dirty_buffer_pitch - 0 % g.dirty_buffer_pitch := by
    simp
  unfold dirty_clean
  refine ⟨dirty_clean_go_bitmap g words 0 0 g.dirty_buffer_pitch, ?_, ?_⟩
  · intro q hq
    obtain ⟨col, row, h1, h2, h3, h4, h5⟩ :=
      dirty_clean_go_mem g hp words 0 0 0 g.dirty_buffer_pitch e1 e2 e3 hw q hq
    rw [Nat.sub_zero] at h5
    refine ⟨col, row, h1, ?_⟩
    simp only [dirty_tile_in_words]
    exact ⟨h2, h5⟩
  · intro col row
    rw [dirty_clean_go_count g htw hth hp words 0 0 0 g.dirty_buffer_pitch
      e1 e2 e3 hw col row]
    simp only [dirty_tile_in_words]
    by_cases hd : col < 32 * g.dirty_buffer_pitch ∧
        (words.getD (row * g.dirty_buffer_pitch + col / 32) 0).testBit
          (31 - col % 32) = true
    · obtain ⟨hd1, hd2⟩ := hd
      have hlen : row * g.dirty_buffer_pitch + col / 32 < words.length := by
        by_contra hcon
        push_neg at hcon
        rw [List.getD_eq_default _ _ hcon] at hd2
        simp at hd2
      rw [if_pos ⟨hd1, Nat.zero_le _, by omega,
          by rw [Nat.sub_zero]; exact hd2⟩,
        if_pos ⟨hd1, hd2⟩]
    · rw [if_neg (show ¬ (col < 32 * g.dirty_buffer_pitch ∧
          0 ≤ row * g.dirty_buffer_pitch + col / 32 ∧
          row * g.dirty_buffer_pitch + col / 32 - 0 < words.length ∧
          (words.getD (row * g.dirty_buffer_pitch + col / 32 - 0) 0).testBit
            (31 - col % 32) = true) from fun hcc => hd ⟨hcc.1, by
        have h4 := hcc.2.2.2
        rw [Nat.sub_zero] at h4
        exact h4⟩),
        if_neg hd]

/-- Concrete check of dirty_clean_correct: geometry 1024x64, 32x32
tiles, pitch 1, bitmap words [0x80000000, 1]; the bitmap is zeroed and
tile (31, 1) (bit 0 of the second word) receives exactly one blt. -/
theorem dirty_clean_correct_witness :
    (dirty_clean ⟨1024, 64, 32, 32, 1⟩ [2147483648, 1]).2 =
      List.replicate 2 0 ∧
    (dirty_clean ⟨1024, 64, 32, 32, 1⟩ [2147483648, 1]).1.count
        (((31 : Nat) : Int) * 32, ((1 : Nat) : Int) * 32) =
      if dirty_tile_in_words [2147483648, 1] 1 31 1 then 1 else 0 :=
  And.intro
    (dirty_clean_correct ⟨1024, 64, 32, 32, 1⟩ [2147483648, 1]
      (by decide) (by decide) (by decide) (by decide)).1
    ((dirty_clean_correct ⟨1024, 64, 32, 32, 1⟩ [2147483648, 1]
      (by decide) (by decide) (by decide) (by decide)).2.2 31 1)
